import Mathlib

set_option maxRecDepth 8000

deriving instance DecidableEq for Except

/-!
# Verification of the ANISE toolkit fragment

A shallow embedding, in Lean 4, of the core routines of the ANISE
astrodynamics toolkit fragment: the DAF record decoders
(recordtypes), the almanac loader/setters (almanac/mod), the
ephemeris frame-graph resolver (context/query_ephem) and the Hermite
interpolation core (math/polyfit/hrmint).

Modelling conventions:
* Rust byte buffers are `List Nat` (each element one byte value);
  decoded strings are `List Nat` of Unicode code points.
* `f64` values are modelled as exact rationals `ℚ`; machine integers as
  `Nat` (no arithmetic in the embedded fragment approaches `u32`/`usize`
  overflow on the inputs considered, except where noted).
* A fallible Rust call returns `Except e a`; a call that can panic
  (out-of-bounds slice or index, `unwrap` of `None`, assertion failure,
  unbounded recursion) is wrapped in `Option`, where `none` models the
  panic or divergence.
-/

namespace Anise

/-- Size of a double-precision float in bytes (`DBL_SIZE`). -/
def DBL_SIZE : Nat := 8

/-- Length of a DAF record in bytes (`RCRD_LEN`). -/
def RCRD_LEN : Nat := 1024

/-- Modelled from the spec: a reference frame is a pair of integer
identifiers, an ephemeris identifier and an orientation identifier;
frame equality is pairwise equality of the identifiers.  (The `Frame`
type itself is outside the provided sources; only this much is needed
by `query_ephem`.) -/
structure Frame where
  ephemeris_hash : Nat
  orientation_hash : Nat
deriving DecidableEq, Repr

/-- Modelled from the spec: `Frame::with_ephem` replaces the ephemeris
identifier and keeps the orientation identifier. -/
def Frame.with_ephem (f : Frame) (h : Nat) : Frame :=
  { f with ephemeris_hash := h }

/-- Integrity error kinds used by `query_ephem` (payload-free fields of
the original are kept; message strings are dropped). -/
inductive IntegrityErrorKind where
  | LookupTable
  | DisjointRoots (from_frame to_frame : Frame)
  | DataMissing
deriving DecidableEq, Repr

/-- The `AniseError` variants exercised by the embedded fragment.
`DAFParserError` carries a message string in the source, which the
model drops. -/
inductive AniseError where
  | ItemNotFound
  | MaxTreeDepth
  | IntegrityError (kind : IntegrityErrorKind)
  | DAFParserError
deriving DecidableEq, Repr

/-! ## DAF file record (`naif/daf/recordtypes.rs`) -/

/-- `DAFFileRecord`: the decoded 1024-byte DAF file record.  Byte-array
fields are byte lists; `nd`, `ni` and the record pointers are the
decoded `u32` values. -/
structure DAFFileRecord where
  locidw : List Nat
  nd : Nat
  ni : Nat
  locifn : List Nat
  forward : Nat
  backward : Nat
  free_addr : Nat
  locfmt : List Nat
  prenul : List Nat
  ftpstr : List Nat
  pstnul : List Nat
deriving DecidableEq, Repr

/-- `DAFFileRecord::summary_size`: `nd + (ni + 1) / 2` in integer
(truncating) arithmetic, exactly as the source computes it. -/
def DAFFileRecord.summary_size (r : DAFFileRecord) : Nat :=
  r.nd + (r.ni + 1) / 2

/-- A file record with the given component counts and irrelevant
remaining fields, used to evaluate `summary_size` on concrete counts. -/
def DAFFileRecord.withCounts (nd ni : Nat) : DAFFileRecord :=
  { locidw := List.replicate 8 32
    nd := nd
    ni := ni
    locifn := List.replicate 60 32
    forward := 0
    backward := 0
    free_addr := 0
    locfmt := List.replicate 8 32
    prenul := List.replicate 603 0
    ftpstr := List.replicate 28 0
    pstnul := List.replicate 297 0 }

/-! ## UTF-8 decoding and trimming

`core::str::from_utf8` and `str::trim` are modelled at the byte level:
`utf8Decode` validates and decodes a byte list to a code-point list
following the UTF-8 validity table (rejecting overlong encodings,
surrogates and code points above U+10FFFF exactly as `from_utf8`
does), and `trimChars` strips the Unicode whitespace code points that
`char::is_whitespace` recognises from both ends. -/

/-- Lower bound for the second byte of a multi-byte UTF-8 sequence,
given the leading byte (tightened for `0xE0`/`0xF0` to reject overlong
encodings). -/
def utf8SecondLo (b : Nat) : Nat :=
  if b = 0xE0 then 0xA0 else if b = 0xF0 then 0x90 else 0x80

/-- Upper bound for the second byte of a multi-byte UTF-8 sequence,
given the leading byte (tightened for `0xED` to reject surrogates and
for `0xF4` to reject code points above U+10FFFF). -/
def utf8SecondHi (b : Nat) : Nat :=
  if b = 0xED then 0x9F else if b = 0xF4 then 0x8F else 0xBF

/-- Decode a byte list as UTF-8, or return `none` when the bytes are
not valid UTF-8. -/
def utf8Decode : List Nat → Option (List Nat)
  | [] => some []
  | b :: rest =>
    if b < 0x80 then
      (utf8Decode rest).map (fun cs => b :: cs)
    else if 0xC2 ≤ b ∧ b ≤ 0xDF then
      match rest with
      | b2 :: rest2 =>
        if 0x80 ≤ b2 ∧ b2 ≤ 0xBF then
          (utf8Decode rest2).map (fun cs => ((b - 0xC0) * 0x40 + (b2 - 0x80)) :: cs)
        else none
      | [] => none
    else if 0xE0 ≤ b ∧ b ≤ 0xEF then
      match rest with
      | b2 :: b3 :: rest3 =>
        if (utf8SecondLo b ≤ b2 ∧ b2 ≤ utf8SecondHi b) ∧ (0x80 ≤ b3 ∧ b3 ≤ 0xBF) then
          (utf8Decode rest3).map
            (fun cs => ((b - 0xE0) * 0x1000 + (b2 - 0x80) * 0x40 + (b3 - 0x80)) :: cs)
        else none
      | _ => none
    else if 0xF0 ≤ b ∧ b ≤ 0xF4 then
      match rest with
      | b2 :: b3 :: b4 :: rest4 =>
        if (utf8SecondLo b ≤ b2 ∧ b2 ≤ utf8SecondHi b) ∧
            (0x80 ≤ b3 ∧ b3 ≤ 0xBF) ∧ (0x80 ≤ b4 ∧ b4 ≤ 0xBF) then
          (utf8Decode rest4).map
            (fun cs =>
              ((b - 0xF0) * 0x40000 + (b2 - 0x80) * 0x1000 +
                (b3 - 0x80) * 0x40 + (b4 - 0x80)) :: cs)
        else none
      | _ => none
    else none

/-- The Unicode `White_Space` code points recognised by
`char::is_whitespace`. -/
def isRustWhitespace (c : Nat) : Bool :=
  [0x9, 0xA, 0xB, 0xC, 0xD, 0x20, 0x85, 0xA0, 0x1680,
   0x2000, 0x2001, 0x2002, 0x2003, 0x2004, 0x2005, 0x2006, 0x2007,
   0x2008, 0x2009, 0x200A, 0x2028, 0x2029, 0x202F, 0x205F, 0x3000].contains c

/-- `str::trim` on a decoded code-point list: drop whitespace from both
ends. -/
def trimChars (cs : List Nat) : List Nat :=
  ((cs.dropWhile (fun c => isRustWhitespace c)).reverse.dropWhile
    (fun c => isRustWhitespace c)).reverse

/-! ## Name records (`naif/daf/recordtypes.rs`) -/

/-- `NameRecord`: one 1024-byte record of fixed-width segment names. -/
structure NameRecord where
  raw_names : List Nat
deriving DecidableEq, Repr

/-- The code points of the placeholder string `UNNAMED OBJECT`. -/
def unnamedObject : List Nat :=
  [85, 78, 78, 65, 77, 69, 68, 32, 79, 66, 74, 69, 67, 84]

/-- `NameRecord::num_entries`: the source computes
`raw_names.len() / summary_size * DBL_SIZE`, which by left-to-right
operator precedence is `(len / summary_size) * 8`. -/
def NameRecord.num_entries (r : NameRecord) (summary_size : Nat) : Nat :=
  r.raw_names.length / summary_size * DBL_SIZE

/-- The byte slice `raw_names[n * summary_size * DBL_SIZE ..
(n + 1) * summary_size * DBL_SIZE]` taken by `nth_name`. -/
def NameRecord.nthNameSlice (r : NameRecord) (n summary_size : Nat) : List Nat :=
  (r.raw_names.drop (n * summary_size * DBL_SIZE)).take
    ((n + 1) * summary_size * DBL_SIZE - n * summary_size * DBL_SIZE)

/-- `NameRecord::nth_name`.  Slicing past the end of `raw_names`
panics (`none`); otherwise the slice is UTF-8-decoded and trimmed, with
invalid UTF-8 replaced by `UNNAMED OBJECT` (after a logged warning). -/
def NameRecord.nth_name (r : NameRecord) (n summary_size : Nat) : Option (List Nat) :=
  if (n + 1) * summary_size * DBL_SIZE ≤ r.raw_names.length then
    match utf8Decode (r.nthNameSlice n summary_size) with
    | some name => some (trimChars name)
    | none => some unnamedObject
  else none

/-- The loop of `NameRecord::index_from_name`: try indices `i, i+1, …`
for the given number of remaining steps, returning at the first name
equal to `name`. -/
def NameRecord.indexFromNameLoop (r : NameRecord) (name : List Nat) (summary_size : Nat) :
    Nat → Nat → Option (Except AniseError Nat)
  | _, 0 => some (.error .ItemNotFound)
  | i, steps + 1 =>
    match r.nth_name i summary_size with
    | none => none
    | some s =>
      if s = name then some (.ok i)
      else r.indexFromNameLoop name summary_size (i + 1) steps

/-- `NameRecord::index_from_name`: linear search over
`0 .. num_entries(summary_size)`. -/
def NameRecord.index_from_name (r : NameRecord) (name : List Nat) (summary_size : Nat) :
    Option (Except AniseError Nat) :=
  r.indexFromNameLoop name summary_size 0 (r.num_entries summary_size)

/-- A 1024-byte name record whose first byte is `0xFF` (invalid UTF-8)
followed by ASCII spaces. -/
def invalidUtf8Record : NameRecord := ⟨255 :: List.replicate 1023 32⟩

/-- A name record holding the name `ABC` (padded with spaces) in its
first 8-byte slot. -/
def testNameRecord : NameRecord := ⟨65 :: 66 :: 67 :: List.replicate 1021 32⟩

/-! ## Almanac structure and dataset setters (`almanac/mod.rs`) -/

/-- `MAX_LOADED_SPKS`. -/
def MAX_LOADED_SPKS : Nat := 32

/-- `MAX_LOADED_BPCS`. -/
def MAX_LOADED_BPCS : Nat := 8

/-- `MAX_SPACECRAFT_DATA`. -/
def MAX_SPACECRAFT_DATA : Nat := 16

/-- `MAX_PLANETARY_DATA` -/
def MAX_PLANETARY_DATA : Nat := 64

/-- The `Almanac` record.  The concrete SPK/BPC/dataset types live
outside the provided sources, so the structure is parametric in them;
the fixed-capacity slot arrays are lists of optional slots. -/
structure Almanac (SPK BPC PlanetaryDataSet SpacecraftDataSet EulerParameterDataSet : Type) where
  spk_data : List (Option SPK)
  bpc_data : List (Option BPC)
  planetary_data : PlanetaryDataSet
  spacecraft_data : SpacecraftDataSet
  euler_param_data : EulerParameterDataSet

/-- `Almanac::with_spacecraft_data`: clone and overwrite the
spacecraft dataset slot. -/
def Almanac.with_spacecraft_data {α β γ δ ε : Type} (self : Almanac α β γ δ ε)
    (spacecraft_data : δ) : Almanac α β γ δ ε :=
  { self with spacecraft_data := spacecraft_data }

/-- `Almanac::with_euler_parameters`: clone and overwrite the Euler
parameter dataset slot. -/
def Almanac.with_euler_parameters {α β γ δ ε : Type} (self : Almanac α β γ δ ε)
    (ep_dataset : ε) : Almanac α β γ δ ε :=
  { self with euler_param_data := ep_dataset }

/-! ## The generic loader (`Almanac::load_from_bytes`) -/

/-- The file kinds `DAFFileRecord::identification` can report. -/
inductive FileId where
  | SPK
  | PCK
deriving DecidableEq, Repr

/-- Decode a `u32` from four little-endian bytes. -/
def u32le (bs : List Nat) : Nat :=
  match bs with
  | [b0, b1, b2, b3] => b0 + b1 * 0x100 + b2 * 0x10000 + b3 * 0x1000000
  | _ => 0

/-- `FileRecord::read_from` (zerocopy): succeeds exactly when the
slice length matches the 1024-byte record layout, splitting the bytes
into the record fields. -/
def DAFFileRecord.read_from (bytes : List Nat) : Option DAFFileRecord :=
  if bytes.length = RCRD_LEN then
    some
      { locidw := bytes.take 8
        nd := u32le ((bytes.drop 8).take 4)
        ni := u32le ((bytes.drop 12).take 4)
        locifn := (bytes.drop 16).take 60
        forward := u32le ((bytes.drop 76).take 4)
        backward := u32le ((bytes.drop 80).take 4)
        free_addr := u32le ((bytes.drop 84).take 4)
        locfmt := (bytes.drop 88).take 8
        prenul := (bytes.drop 96).take 603
        ftpstr := (bytes.drop 699).take 28
        pstnul := (bytes.drop 727).take 297 }
  else none

/-- `DAFFileRecord::identification`: UTF-8-decode `locidw`, check the
`DAF/` prefix and match the trimmed subtype.  The byte slice
`str_locidw[0..3]` panics (`none`) when byte 3 is not a character
boundary of the decoded string; message payloads of the errors are
dropped. -/
def DAFFileRecord.identification (r : DAFFileRecord) : Option (Except AniseError FileId) :=
  match utf8Decode r.locidw with
  | none => some (.error .DAFParserError)
  | some cs =>
    if 0x80 ≤ r.locidw.getD 3 0 ∧ r.locidw.getD 3 0 ≤ 0xBF then none
    else if ¬ (r.locidw.take 3 = [68, 65, 70] ∧ cs.getD 3 0 = 47) then
      some (.error .DAFParserError)
    else
      match trimChars (cs.drop 4) with
      | [83, 80, 75] => some (.ok .SPK)
      | [80, 67, 75] => some (.ok .PCK)
      | _ => some (.error .DAFParserError)

/-- The `AlmanacError` variants raised by `load_from_bytes`
(snafu context payloads dropped). -/
inductive AlmanacError where
  | GenericError
  | Ephemeris
  | Orientation
  | TLDataSet
  | Loading
deriving DecidableEq, Repr

/-- `DataSetType` tag of the self-describing constants dataset. -/
inductive DataSetType where
  | NotApplicable
  | SpacecraftData
  | PlanetaryData
  | EulerParameterData
deriving DecidableEq, Repr

/-- The decoded dataset header metadata (only the type tag is used by
the loader). -/
structure Metadata where
  dataset_type : DataSetType

/-- Modelled from the spec: the sub-parsers and slot setters invoked
by `load_from_bytes` (`SPK::parse`, `BPC::parse`, `with_spk`,
`with_bpc`, `Metadata::decode_header`, the three dataset decoders and
`with_planetary_data`) live outside the provided sources, so the
loader is parametric in them. -/
structure LoaderParts (α β γ δ ε : Type) where
  spkParse : List Nat → Except AniseError α
  bpcParse : List Nat → Except AniseError β
  with_spk : Almanac α β γ δ ε → α → Except AniseError (Almanac α β γ δ ε)
  with_bpc : Almanac α β γ δ ε → β → Except AniseError (Almanac α β γ δ ε)
  decode_header : List Nat → Except AniseError Metadata
  spacecraftFromBytes : List Nat → Except AniseError δ
  planetaryFromBytes : List Nat → Except AniseError γ
  eulerFromBytes : List Nat → Except AniseError ε
  with_planetary_data : Almanac α β γ δ ε → γ → Almanac α β γ δ ε

/-- `Almanac::load_from_bytes`.  The first statement slices
`&bytes[..FileRecord::SIZE]`, which panics (`none`) when the buffer
holds fewer than 1024 bytes; afterwards the record is identified and
dispatched to the SPK/BPC loaders or to the dataset decoders.
(`unreachable!` on `DataSetType::NotApplicable` is also a panic.) -/
def Almanac.load_from_bytes {α β γ δ ε : Type} (parts : LoaderParts α β γ δ ε)
    (self : Almanac α β γ δ ε) (bytes : List Nat) :
    Option (Except AlmanacError (Almanac α β γ δ ε)) :=
  if RCRD_LEN ≤ bytes.length then
    match DAFFileRecord.read_from (bytes.take RCRD_LEN) with
    | none => none
    | some file_record =>
      match file_record.identification with
      | none => none
      | some (.ok .PCK) =>
        some
          (match parts.bpcParse bytes with
          | .error _ => .error .Orientation
          | .ok bpc =>
            match parts.with_bpc self bpc with
            | .error _ => .error .Orientation
            | .ok alm => .ok alm)
      | some (.ok .SPK) =>
        some
          (match parts.spkParse bytes with
          | .error _ => .error .Ephemeris
          | .ok spk =>
            match parts.with_spk self spk with
            | .error _ => .error .Ephemeris
            | .ok alm => .ok alm)
      | some (.error _) =>
        match parts.decode_header bytes with
        | .ok metadata =>
          match metadata.dataset_type with
          | .NotApplicable => none
          | .SpacecraftData =>
            some
              (match parts.spacecraftFromBytes bytes with
              | .error _ => .error .TLDataSet
              | .ok ds => .ok (self.with_spacecraft_data ds))
          | .PlanetaryData =>
            some
              (match parts.planetaryFromBytes bytes with
              | .error _ => .error .TLDataSet
              | .ok ds => .ok (parts.with_planetary_data self ds))
          | .EulerParameterData =>
            some
              (match parts.eulerFromBytes bytes with
              | .error _ => .error .TLDataSet
              | .ok ds => .ok (self.with_euler_parameters ds))
        | .error _ => some (.error .GenericError)
  else none

/-- A trivial instantiation of the loader parameters over `Unit`
payload types, for concrete evaluation. -/
def unitParts : LoaderParts Unit Unit Unit Unit Unit :=
  { spkParse := fun _ => .ok ()
    bpcParse := fun _ => .ok ()
    with_spk := fun a _ => .ok a
    with_bpc := fun a _ => .ok a
    decode_header := fun _ => .error .ItemNotFound
    spacecraftFromBytes := fun _ => .ok ()
    planetaryFromBytes := fun _ => .ok ()
    eulerFromBytes := fun _ => .ok ()
    with_planetary_data := fun a _ => a }

/-- An empty almanac over `Unit` payload types. -/
def unitAlmanac : Almanac Unit Unit Unit Unit Unit :=
  { spk_data := List.replicate MAX_LOADED_SPKS none
    bpc_data := List.replicate MAX_LOADED_BPCS none
    planetary_data := ()
    spacecraft_data := ()
    euler_param_data := () }

/-! ## The ephemeris frame-graph resolver (`context/query_ephem.rs`) -/

/-- `MAX_TREE_DEPTH`: no translation or rotation may have more than 8
nodes. -/
def MAX_TREE_DEPTH : Nat := 8

/-- The hash of the Solar System Barycentre, the graph root. -/
def SOLAR_SYSTEM_BARYCENTER : Nat := 0

/-- The per-frame ephemeris data; only the parent hash is consulted by
the resolver. -/
structure Ephemeris where
  parent_ephemeris_hash : Nat
deriving DecidableEq, Repr

/-- The slice of the `AniseContext` used by the resolver.  Modelled
from the spec: the lookup table (`ephemeris_lut`) maps an ephemeris
hash to the index of its data record and reports a miss as
`ItemNotFound`. -/
structure AniseContext where
  ephemeris_lut : List (Nat × Nat)
  ephemeris_data : List Ephemeris
deriving DecidableEq, Repr

/-- Modelled from the spec: `LookupTable::index_for_hash` — an
association lookup that errors with `ItemNotFound` on a miss. -/
def AniseContext.index_for_hash (ctx : AniseContext) (hash : Nat) : Except AniseError Nat :=
  match ctx.ephemeris_lut.lookup hash with
  | some idx => .ok idx
  | none => .error .ItemNotFound

/-- `AniseContext::try_ephemeris_data`: index into the data table, or
an integrity error when the index is out of bounds. -/
def AniseContext.try_ephemeris_data (ctx : AniseContext) (idx : Nat) :
    Except AniseError Ephemeris :=
  match ctx.ephemeris_data.get? idx with
  | some e => .ok e
  | none => .error (.IntegrityError .LookupTable)

/-- The body of the `for _ in 0..MAX_TREE_DEPTH` loop of
`try_ephemeris_path`, with the remaining iteration count as fuel; when
the loop completes without returning, the result is `MaxTreeDepth`. -/
def AniseContext.tryEphemerisPathLoop (ctx : AniseContext) :
    Nat → Nat → List (Option Nat) → Nat → Except AniseError (Nat × List (Option Nat))
  | 0, _, _, _ => .error .MaxTreeDepth
  | fuel + 1, prev_ephem_hash, of_path, of_path_len =>
    match ctx.index_for_hash prev_ephem_hash with
    | .error e => .error e
    | .ok idx =>
      match ctx.try_ephemeris_data idx with
      | .error e => .error e
      | .ok parent_ephem =>
        let parent_hash := parent_ephem.parent_ephemeris_hash
        let of_path2 := of_path.set of_path_len (some parent_hash)
        let of_path_len2 := of_path_len + 1
        if parent_hash = SOLAR_SYSTEM_BARYCENTER then .ok (of_path_len2, of_path2)
        else
          match ctx.index_for_hash parent_hash with
          | .error e =>
            if e = .ItemNotFound then .ok (of_path_len2, of_path2)
            else ctx.tryEphemerisPathLoop fuel parent_hash of_path2 of_path_len2
          | .ok _ => ctx.tryEphemerisPathLoop fuel parent_hash of_path2 of_path_len2

/-- `AniseContext::try_ephemeris_path`: walk the parent chain from the
source frame for at most `MAX_TREE_DEPTH` steps, recording each parent
hash; stop at the Solar System Barycentre or at a hash with no entry
in the context. -/
def AniseContext.try_ephemeris_path (ctx : AniseContext) (source : Frame) :
    Except AniseError (Nat × List (Option Nat)) :=
  ctx.tryEphemerisPathLoop MAX_TREE_DEPTH source.ephemeris_hash
    (List.replicate MAX_TREE_DEPTH none) 0

/-- The nested scan of `find_ephemeris_root`: iterate the outer path
entries in order and return the first one that also occurs among the
inner path entries.  (The source returns the matching `to_obj`; the
matched outer and inner entries are equal, so returning the outer one
is the same value in both loop arrangements.) -/
def scanPaths (outer inner : List (Option Nat)) : Option (Option Nat) :=
  outer.find? (fun o => inner.contains o)

/-- `AniseContext::find_ephemeris_root`: equal frames short-circuit;
otherwise both paths are computed (errors propagate) and the four-way
case analysis of the source is applied.  The `.unwrap()` of the
matched entry is a panic (`none`) when that entry is `None`. -/
def AniseContext.find_ephemeris_root (ctx : AniseContext) (from_frame to_frame : Frame) :
    Option (Except AniseError Nat) :=
  if from_frame = to_frame then some (.ok from_frame.ephemeris_hash)
  else
    match ctx.try_ephemeris_path from_frame with
    | .error e => some (.error e)
    | .ok (from_len, from_path) =>
      match ctx.try_ephemeris_path to_frame with
      | .error e => some (.error e)
      | .ok (to_len, to_path) =>
        if from_len = 0 ∧ to_len = 0 then
          some (.error (.IntegrityError (.DisjointRoots from_frame to_frame)))
        else if from_len ≠ 0 ∧ to_len = 0 then some (.ok to_frame.ephemeris_hash)
        else if to_len ≠ 0 ∧ from_len = 0 then some (.ok from_frame.ephemeris_hash)
        else
          match
            if from_len > to_len then scanPaths (to_path.take to_len) (from_path.take from_len)
            else scanPaths (from_path.take from_len) (to_path.take to_len)
          with
          | some (some root) => some (.ok root)
          | some none => none
          | none => some (.error (.IntegrityError .DataMissing))

/-- `AniseContext::translate_from_to`.  The source recurses with no
explicit bound (its doc comment asserts a recursion of no more than
`2 * MAX_TREE_DEPTH`); the model takes the recursion depth as fuel and
returns `none` (divergence / stack exhaustion) when it runs out.  No
segment is ever evaluated in this fragment: equal frames yield zero
vectors and the recursive results are subtracted componentwise. -/
def AniseContext.translate_from_to (ctx : AniseContext) :
    Nat → Frame → Frame → ℚ → Option (Except AniseError ((ℚ × ℚ × ℚ) × (ℚ × ℚ × ℚ)))
  | 0, _, _, _ => none
  | fuel + 1, from_frame, to_frame, epoch =>
    if from_frame = to_frame then some (.ok ((0, 0, 0), (0, 0, 0)))
    else
      match ctx.find_ephemeris_root from_frame to_frame with
      | none => none
      | some (.error e) => some (.error e)
      | some (.ok ephem_root) =>
        match ctx.translate_from_to fuel from_frame (from_frame.with_ephem ephem_root) epoch with
        | none => none
        | some (.error e) => some (.error e)
        | some (.ok (pos_from_to_root, vel_from_to_root)) =>
          match ctx.translate_from_to fuel to_frame (to_frame.with_ephem ephem_root) epoch with
          | none => none
          | some (.error e) => some (.error e)
          | some (.ok (pos_to_to_root, vel_to_to_root)) =>
            some (.ok
              (pos_from_to_root - pos_to_to_root, vel_from_to_root - vel_to_to_root))

/-- A context holding two one-node trees with unrelated roots: hash 10
has parent 99 and hash 20 has parent 88, neither parent being loaded
or the barycentre. -/
def disjointCtx : AniseContext :=
  { ephemeris_lut := [(10, 0), (20, 1)]
    ephemeris_data := [{ parent_ephemeris_hash := 99 }, { parent_ephemeris_hash := 88 }] }

/-- One lookup-and-dereference step of the path loop: the parent hash
of `h` in the context, with the loop's error propagation. -/
def parent_of (ctx : AniseContext) (h : Nat) : Except AniseError Nat :=
  match ctx.index_for_hash h with
  | .error e => .error e
  | .ok idx =>
    match ctx.try_ephemeris_data idx with
    | .error e => .error e
    | .ok parent_ephem => .ok parent_ephem.parent_ephemeris_hash

/-- The stopping condition of the path loop: the hash is the Solar
System Barycentre, or it has no entry in the lookup table. -/
def chainStops (ctx : AniseContext) (h : Nat) : Prop :=
  h = SOLAR_SYSTEM_BARYCENTER ∨ ctx.index_for_hash h = .error .ItemNotFound

/-- The parent chain recorded by a successful `try_ephemeris_path`
run starting at `start`: a nonempty list of parent hashes, each
obtained from the previous by `parent_of`, stopping exactly at the
last entry. -/
structure IsPathChain (ctx : AniseContext) (start : Nat) (cs : List Nat) : Prop where
  ne : cs ≠ []
  head : parent_of ctx start = .ok (cs.getD 0 0)
  step : ∀ t, t + 1 < cs.length → parent_of ctx (cs.getD t 0) = .ok (cs.getD (t + 1) 0)
  mid : ∀ t, t + 1 < cs.length → ¬ chainStops ctx (cs.getD t 0)
  last : chainStops ctx (cs.getD (cs.length - 1) 0)

/-- A context whose parent chain `1 → 2 → ⋯ → 10` never terminates
within `MAX_TREE_DEPTH` steps. -/
def deepCtx : AniseContext :=
  { ephemeris_lut := [(1, 0), (2, 1), (3, 2), (4, 3), (5, 4), (6, 5), (7, 6), (8, 7), (9, 8)]
    ephemeris_data :=
      [{ parent_ephemeris_hash := 2 }, { parent_ephemeris_hash := 3 },
        { parent_ephemeris_hash := 4 }, { parent_ephemeris_hash := 5 },
        { parent_ephemeris_hash := 6 }, { parent_ephemeris_hash := 7 },
        { parent_ephemeris_hash := 8 }, { parent_ephemeris_hash := 9 },
        { parent_ephemeris_hash := 10 }] }

/-! ## The Hermite interpolation core (`math/polyfit/hrmint.rs`)

`hrmint_` is the f2c translation of SPICE's `HRMINT`.  The work array
is a fixed 256-element buffer; every array access is bounds-checked in
Rust, so the model threads an `Option` through each read and write
(`none` = index-out-of-bounds panic).  `f64` arithmetic is modelled
over `ℚ` (division by zero yields 0 and cannot panic, as in IEEE). -/

/-- Checked read of the work array (`work[i]`). -/
def wget (w : List ℚ) (i : Nat) : Option ℚ := w.get? i

/-- Checked write to the work array (`work[i] = v`). -/
def wset (w : List ℚ) (i : Nat) (v : ℚ) : Option (List ℚ) :=
  if i < w.length then some (w.set i v) else none

/-- `for i in lo ..= lo + cnt - 1 { s = body i s }` over an
option-valued body: the first failing iteration aborts the loop. -/
def optFor {σ : Type} (body : Nat → σ → Option σ) : Nat → Nat → σ → Option σ
  | _, 0, s => some s
  | lo, cnt + 1, s => (body lo s).bind (optFor body (lo + 1) cnt)

/-- The copy loop of `hrmint_` (lines 32–34): `work[i + work_dim1 -
work_offset] = yvals[i - 1]` for `i in 1..=n*2`. -/
def hrmintPhase1Body (yvals : List ℚ) (work_dim1 work_offset : Nat) (i : Nat)
    (w : List ℚ) : Option (List ℚ) := do
  let yv ← yvals.get? (i - 1)
  wset w (i + work_dim1 - work_offset) yv

/-- The second-column loop of `hrmint_` (lines 46–79), for
`i__ in 1..=n-1`: fill the interpolated derivative entries of column
two and the first-degree interpolants of column one. -/
def hrmintPhase2Body (xvals : List ℚ) (x : ℚ) (work_dim1 work_offset : Nat) (i : Nat)
    (w : List ℚ) : Option (List ℚ) := do
  let xvi ← xvals.get? i
  let xvim ← xvals.get? (i - 1)
  let c1 := xvi - x
  let c2 := x - xvim
  let denom := xvi - xvim
  let prev := i * 2 - 1
  let this2 := prev + 1
  let next := this2 + 1
  let vthis ← wget w (this2 + work_dim1 - work_offset)
  let w ← wset w (prev + work_dim1 * 2 - work_offset) vthis
  let vnext ← wget w (next + work_dim1 - work_offset)
  let vprev ← wget w (prev + work_dim1 - work_offset)
  let w ← wset w (this2 + work_dim1 * 2 - work_offset) ((vnext - vprev) / denom)
  let vthis2 ← wget w (this2 + work_dim1 - work_offset)
  let vprev2 ← wget w (prev + work_dim1 - work_offset)
  let temp := vthis2 * (x - xvim) + vprev2
  let vnext2 ← wget w (next + work_dim1 - work_offset)
  let w ← wset w (this2 + work_dim1 - work_offset) ((c1 * vprev2 + c2 * vnext2) / denom)
  wset w (prev + work_dim1 - work_offset) temp

/-- The last-column fix-up of `hrmint_` (lines 84–87). -/
def hrmintPhase3 (xvals : List ℚ) (x : ℚ) (n work_dim1 work_offset : Nat)
    (w : List ℚ) : Option (List ℚ) := do
  let v2n ← wget w ((n * 2) + work_dim1 - work_offset)
  let w ← wset w ((n * 2) - 1 + (work_dim1 * 2) - work_offset) v2n
  let v2nb ← wget w ((n * 2) + work_dim1 - work_offset)
  let xv ← xvals.get? (n - 1)
  let vp ← wget w ((n * 2) - 1 + work_dim1 - work_offset)
  wset w ((n * 2) - 1 + work_dim1 - work_offset) (v2nb * (x - xv) + vp)

/-- The inner body of the main table loop of `hrmint_` (lines 91–135):
for column `j` and row `i`, update the interpolated derivative first
(it reads the previous column's function values), then the function
value. -/
def hrmintPhase4Body (xvals : List ℚ) (x : ℚ) (work_dim1 work_offset : Nat) (j i : Nat)
    (w : List ℚ) : Option (List ℚ) := do
  let xi := (i + 1) / 2
  let xij := (i + j + 1) / 2
  let xvxij ← xvals.get? (xij - 1)
  let xvxi ← xvals.get? (xi - 1)
  let c1 := xvxij - x
  let c2 := x - xvxi
  let denom := xvxij - xvxi
  let di ← wget w (i + (work_dim1 * 2) - work_offset)
  let dip ← wget w (i + 1 + (work_dim1 * 2) - work_offset)
  let vip ← wget w (i + 1 + work_dim1 - work_offset)
  let vi ← wget w (i + work_dim1 - work_offset)
  let w ← wset w (i + (work_dim1 * 2) - work_offset)
    ((c1 * di + c2 * dip + (vip - vi)) / denom)
  let vi2 ← wget w (i + work_dim1 - work_offset)
  let vip2 ← wget w (i + 1 + work_dim1 - work_offset)
  wset w (i + work_dim1 - work_offset) ((c1 * vi2 + c2 * vip2) / denom)

/-- `hrmint_`: Hermite interpolation over the divided-difference table
of order `2n`.  Returns the interpolated function value and
derivative, or `none` when the `assert!(n > 1)` fails or any work- or
input-array access is out of bounds. -/
def hrmint_ (xvals yvals : List ℚ) (x : ℚ) : Option (ℚ × ℚ) :=
  let n := xvals.length
  let work_dim1 := n * 2
  let work_offset := work_dim1 + 1
  if 1 < n then do
    let w1 ← optFor (hrmintPhase1Body yvals work_dim1 work_offset) 1 (n * 2)
      (List.replicate 256 0)
    let w2 ← optFor (hrmintPhase2Body xvals x work_dim1 work_offset) 1 (n - 1) w1
    let w3 ← hrmintPhase3 xvals x n work_dim1 work_offset w2
    let w4 ← optFor
      (fun j w => optFor (hrmintPhase4Body xvals x work_dim1 work_offset j) 1 (n * 2 - j) w)
      2 (n * 2 - 2) w3
    let f ← wget w4 (work_dim1 + 1 - work_offset)
    let df ← wget w4 ((work_dim1 * 2) + 1 - work_offset)
    pure (f, df)
  else none

/-! ### The mathematical divided-difference table

Reference functions for the contents of the two work-array columns:
`zv` is the doubled abscissa list (1-based theoretical index `m` maps
to `xvals[(m-1)/2]`), `colInitV`/`colInitD` the columns after the
first-degree loop, and `tableV`/`tableD` the columns after processing
column `j` of the triangular table. -/

/-- The doubled abscissas: theoretical 1-based index `m ∈ [1, 2n]`
maps to `xvals[(m-1)/2]`. -/
def zv (xvals : List ℚ) (m : Nat) : ℚ := xvals.getD ((m - 1) / 2) 0

/-- Column-one contents after the first-degree loop: odd rows hold the
linear Taylor polynomials, even rows the linear interpolants. -/
def colInitV (xvals yvals : List ℚ) (x : ℚ) (i : Nat) : ℚ :=
  if i % 2 = 1 then
    yvals.getD (2 * (i / 2) + 1) 0 * (x - xvals.getD (i / 2) 0) + yvals.getD (2 * (i / 2)) 0
  else
    ((xvals.getD (i / 2) 0 - x) * yvals.getD (2 * (i / 2) - 2) 0 +
        (x - xvals.getD (i / 2 - 1) 0) * yvals.getD (2 * (i / 2)) 0) /
      (xvals.getD (i / 2) 0 - xvals.getD (i / 2 - 1) 0)

/-- Column-two contents after the first-degree loop: odd rows hold the
input derivatives, even rows the secant slopes. -/
def colInitD (xvals yvals : List ℚ) (_x : ℚ) (i : Nat) : ℚ :=
  if i % 2 = 1 then yvals.getD (2 * (i / 2) + 1) 0
  else
    (yvals.getD (2 * (i / 2)) 0 - yvals.getD (2 * (i / 2) - 2) 0) /
      (xvals.getD (i / 2) 0 - xvals.getD (i / 2 - 1) 0)

/-- Function-value column after processing table column `j ≥ 1`. -/
def tableV (xvals yvals : List ℚ) (x : ℚ) : Nat → Nat → ℚ
  | 0, _ => 0
  | 1, i => colInitV xvals yvals x i
  | j + 2, i =>
    ((zv xvals (i + (j + 2)) - x) * tableV xvals yvals x (j + 1) i +
        (x - zv xvals i) * tableV xvals yvals x (j + 1) (i + 1)) /
      (zv xvals (i + (j + 2)) - zv xvals i)

/-- Derivative column after processing table column `j ≥ 1`. -/
def tableD (xvals yvals : List ℚ) (x : ℚ) : Nat → Nat → ℚ
  | 0, _ => 0
  | 1, i => colInitD xvals yvals x i
  | j + 2, i =>
    ((zv xvals (i + (j + 2)) - x) * tableD xvals yvals x (j + 1) i +
        (x - zv xvals i) * tableD xvals yvals x (j + 1) (i + 1) +
        (tableV xvals yvals x (j + 1) (i + 1) - tableV xvals yvals x (j + 1) i)) /
      (zv xvals (i + (j + 2)) - zv xvals i)

/-! ### Loop invariants for the four phases of `hrmint_` -/

/-- Invariant of the copy loop before iteration `i`: positions below
`i - 1` hold the copied `yvals`, the rest of the 256-entry buffer is
still zero. -/
def hrmP1Inv (yvals : List ℚ) (i : Nat) (w : List ℚ) : Prop :=
  w.length = 256 ∧ i - 1 ≤ 256 ∧ i - 1 ≤ yvals.length ∧
    (∀ p, p < i - 1 → w.get? p = yvals.get? p) ∧
    (∀ p, i - 1 ≤ p → p < 256 → w.get? p = some 0)

/-- Invariant of the first-degree loop before iteration `i`: rows
`1 … 2(i-1)` of both columns are initialised, the rest of column one
still holds the raw `yvals` copy, and the buffer beyond the written
part of column two is zero. -/
def hrmP2Inv (xvals yvals : List ℚ) (x : ℚ) (i : Nat) (w : List ℚ) : Prop :=
  w.length = 256 ∧
    (∀ q, 1 ≤ q → q ≤ 2 * (i - 1) → w.get? (q - 1) = some (colInitV xvals yvals x q)) ∧
    (∀ p, 2 * (i - 1) ≤ p → p < 2 * xvals.length → w.get? p = yvals.get? p) ∧
    (∀ q, 1 ≤ q → q ≤ 2 * (i - 1) →
      w.get? (q + 2 * xvals.length - 1) = some (colInitD xvals yvals x q)) ∧
    (∀ p, 2 * xvals.length + 2 * (i - 1) ≤ p → p < 256 → w.get? p = some 0)

/-- State after processing table column `j`: the active prefix (rows
`q` with `q + j ≤ 2n`) of column one holds `tableV j` and of column
two holds `tableD j`. -/
def hrmQInv (xvals yvals : List ℚ) (x : ℚ) (j : Nat) (w : List ℚ) : Prop :=
  w.length = 256 ∧
    ∀ q, 1 ≤ q → q + j ≤ 2 * xvals.length →
      w.get? (q - 1) = some (tableV xvals yvals x j q) ∧
      w.get? (q + 2 * xvals.length - 1) = some (tableD xvals yvals x j q)

/-- The work array after iteration `i` of the first-degree loop, with
the four writes spelled out on `getD` values. -/
def hrmP2Next (xvals yvals : List ℚ) (x : ℚ) (i : Nat) (w : List ℚ) : List ℚ :=
  (((w.set (2 * xvals.length + 2 * i - 2) (yvals.getD (2 * i - 1) 0)).set
        (2 * xvals.length + 2 * i - 1)
        ((yvals.getD (2 * i) 0 - yvals.getD (2 * i - 2) 0) /
          (xvals.getD i 0 - xvals.getD (i - 1) 0))).set
      (2 * i - 1)
      (((xvals.getD i 0 - x) * yvals.getD (2 * i - 2) 0 +
          (x - xvals.getD (i - 1) 0) * yvals.getD (2 * i) 0) /
        (xvals.getD i 0 - xvals.getD (i - 1) 0))).set
    (2 * i - 2)
    (yvals.getD (2 * i - 1) 0 * (x - xvals.getD (i - 1) 0) + yvals.getD (2 * i - 2) 0)

/-- The work array after the last-column fix-up (lines 84–87). -/
def hrmP3Next (xvals yvals : List ℚ) (x : ℚ) (w : List ℚ) : List ℚ :=
  (w.set (4 * xvals.length - 2) (yvals.getD (2 * xvals.length - 1) 0)).set
    (2 * xvals.length - 2)
    (yvals.getD (2 * xvals.length - 1) 0 * (x - xvals.getD (xvals.length - 1) 0) +
      yvals.getD (2 * xvals.length - 2) 0)

/-- The work array after processing row `i` of table column `j`, with
the derivative and value writes spelled out on the reference table. -/
def hrmP4Next (xvals yvals : List ℚ) (x : ℚ) (j i : Nat) (w : List ℚ) : List ℚ :=
  (w.set (i + 2 * xvals.length - 1)
      (((zv xvals (i + j) - x) * tableD xvals yvals x (j - 1) i +
          (x - zv xvals i) * tableD xvals yvals x (j - 1) (i + 1) +
          (tableV xvals yvals x (j - 1) (i + 1) - tableV xvals yvals x (j - 1) i)) /
        (zv xvals (i + j) - zv xvals i))).set
    (i - 1)
    (((zv xvals (i + j) - x) * tableV xvals yvals x (j - 1) i +
        (x - zv xvals i) * tableV xvals yvals x (j - 1) (i + 1)) /
      (zv xvals (i + j) - zv xvals i))

/-- Invariant of the inner row loop of column `j` before row `i`:
rows below `i` are already at column `j`, rows from `i` through the
previous column's prefix are still at column `j - 1`. -/
def hrmRInv (xvals yvals : List ℚ) (x : ℚ) (j i : Nat) (w : List ℚ) : Prop :=
  w.length = 256 ∧
    (∀ q, 1 ≤ q → q < i →
      w.get? (q - 1) = some (tableV xvals yvals x j q) ∧
      w.get? (q + 2 * xvals.length - 1) = some (tableD xvals yvals x j q)) ∧
    (∀ q, i ≤ q → q + j ≤ 2 * xvals.length + 1 →
      w.get? (q - 1) = some (tableV xvals yvals x (j - 1) q) ∧
      w.get? (q + 2 * xvals.length - 1) = some (tableD xvals yvals x (j - 1) q))

end Anise

namespace Anise

/-- C1.  The claim states `summary_size = nd + ceil((ni+1)/2)`; with
`nd = 2, ni = 6` (the layout of every SPK file) the source computes
`2 + 7/2 = 5` while `nd + ceil((ni+1)/2) = 2 + 4 = 6`. -/
theorem C1_counterexample :
    (DAFFileRecord.withCounts 2 6).summary_size = 5 ∧
    (DAFFileRecord.withCounts 2 6).nd + ((DAFFileRecord.withCounts 2 6).ni + 1 + 1) / 2 = 6 ∧
    (DAFFileRecord.withCounts 2 6).summary_size ≠
      (DAFFileRecord.withCounts 2 6).nd + ((DAFFileRecord.withCounts 2 6).ni + 1 + 1) / 2 := by
  refine ⟨rfl, rfl, ?_⟩
  decide

/-- C1 (amended).  For every DAF file record, `summary_size` returns
`nd + ceil(ni / 2)` doubles — the integer components packed two per
double, rounded up — which is `nd + floor((ni + 1) / 2)`, not
`nd + ceil((ni + 1) / 2)`. -/
theorem C1_summary_size_amended (r : DAFFileRecord) :
    r.summary_size = r.nd + (r.ni / 2 + r.ni % 2) := by
  unfold DAFFileRecord.summary_size
  omega

/-- C2.  The claim states that `index_from_name` never panics because
`num_entries(summary_size)` never exceeds `floor(1024 / (summary_size *
8))`.  In the source `raw_names.len() / summary_size * DBL_SIZE`
parses as `(1024 / summary_size) * 8`: with `summary_size = 128` it
returns 64 although only one 1024-byte name fits, and the search for a
name that is not stored slices `raw_names[1024..2048]` out of bounds
and panics (`none`). -/
theorem C2_index_from_name_panics :
    invalidUtf8Record.num_entries 128 = 64 ∧
    RCRD_LEN / (128 * DBL_SIZE) = 1 ∧
    invalidUtf8Record.index_from_name [88] 128 = none := by
  refine ⟨by decide, by decide, ?_⟩
  decide

/-- C9.  For every slot that lies inside the record, `nth_name` does
not panic: it returns the trimmed decoded name when the slot bytes are
valid UTF-8 and the `UNNAMED OBJECT` placeholder when they are not. -/
theorem C9_nth_name (r : NameRecord) (n summary_size : Nat) (cs : List Nat)
    (hin : (n + 1) * summary_size * DBL_SIZE ≤ r.raw_names.length) :
    (utf8Decode (r.nthNameSlice n summary_size) = some cs →
      r.nth_name n summary_size = some (trimChars cs)) ∧
    (utf8Decode (r.nthNameSlice n summary_size) = none →
      r.nth_name n summary_size = some unnamedObject) := by
  constructor
  · intro hdec
    unfold NameRecord.nth_name
    rw [if_pos hin, hdec]
  · intro hdec
    unfold NameRecord.nth_name
    rw [if_pos hin, hdec]

/-- C9, witnessed on a concrete record: the first 8-byte slot of
`testNameRecord` holds `ABC` padded with spaces and decodes to the
trimmed name. -/
theorem C9_nth_name_witness :
    ((0 + 1) * 1 * DBL_SIZE ≤ testNameRecord.raw_names.length ∧
      utf8Decode (testNameRecord.nthNameSlice 0 1) =
        some [65, 66, 67, 32, 32, 32, 32, 32]) ∧
    testNameRecord.nth_name 0 1 = some (trimChars [65, 66, 67, 32, 32, 32, 32, 32]) :=
  ⟨⟨by decide, by decide⟩,
    (C9_nth_name testNameRecord 0 1 [65, 66, 67, 32, 32, 32, 32, 32]
      (by decide)).1 (by decide)⟩

/-- Reading a just-written list position. -/
theorem get?_set_self {α : Type} (l : List α) (i : Nat) (a : α) (h : i < l.length) :
    (l.set i a).get? i = some a := by
  induction l generalizing i with
  | nil => simp at h
  | cons b t ih =>
    cases i with
    | zero => simp
    | succ i2 => simpa using ih i2 (by simpa using h)

/-- Reading any other list position after a write. -/
theorem get?_set_other {α : Type} (l : List α) (i j : Nat) (a : α) (h : i ≠ j) :
    (l.set i a).get? j = l.get? j := by
  induction l generalizing i j with
  | nil => simp
  | cons b t ih =>
    cases i with
    | zero =>
      cases j with
      | zero => exact absurd rfl h
      | succ j2 => simp
    | succ i2 =>
      cases j with
      | zero => simp
      | succ j2 => simpa using ih i2 j2 (by omega)

/-- A successful `get?` witnesses that the index is in range. -/
theorem get?_some_lt {α : Type} (l : List α) (n : Nat) (a : α) (h : l.get? n = some a) :
    n < l.length := by
  induction l generalizing n with
  | nil => simp at h
  | cons b t ih =>
    cases n with
    | zero => simp
    | succ n2 =>
      have := ih n2 (by simpa using h)
      simpa using this

/-- `getD` agrees with a successful `get?`. -/
theorem getD_of_get? {α : Type} (l : List α) (n : Nat) (a d : α) (h : l.get? n = some a) :
    l.getD n d = a := by
  induction l generalizing n with
  | nil => simp at h
  | cons b t ih =>
    cases n with
    | zero => simpa using h
    | succ n2 => simpa using ih n2 (by simpa using h)

/-- `get?` returns the `getD` value at indices in range. -/
theorem get?_eq_getD {α : Type} (l : List α) (n : Nat) (d : α) (h : n < l.length) :
    l.get? n = some (l.getD n d) := by
  induction l generalizing n with
  | nil => simp at h
  | cons b t ih =>
    cases n with
    | zero => simp
    | succ n2 => simpa using ih n2 (by simpa using h)

/-- `get?` commutes with `take` below the cut. -/
theorem get?_take_lt {α : Type} (l : List α) (n t : Nat) (h : t < n) :
    (l.take n).get? t = l.get? t := by
  induction l generalizing n t with
  | nil => simp
  | cons b tl ih =>
    cases n with
    | zero => omega
    | succ n2 =>
      cases t with
      | zero => simp
      | succ t2 => simpa using ih n2 t2 (by omega)

/-- Two lists with the same `get?` at every index are equal. -/
theorem ext_by_get? {α : Type} (l1 l2 : List α) (h : ∀ n, l1.get? n = l2.get? n) :
    l1 = l2 := by
  induction l1 generalizing l2 with
  | nil =>
    cases l2 with
    | nil => rfl
    | cons b t => exact absurd (h 0).symm (by simp)
  | cons a t1 ih =>
    cases l2 with
    | nil => exact absurd (h 0) (by simp)
    | cons b t2 =>
      have h0 := h 0
      simp at h0
      rw [h0, ih t2 (fun n => by simpa using h (n + 1))]

/-- `contains` on a `Nat` list is membership. -/
theorem contains_iff_mem (l : List Nat) (a : Nat) : l.contains a = true ↔ a ∈ l := by
  induction l with
  | nil => simp
  | cons b t ih =>
    simp [List.contains_cons, ih]

/-- `contains` over `map some` drops the wrapper. -/
theorem contains_map_some (l : List Nat) (a : Nat) :
    (l.map some).contains (some a) = l.contains a := by
  induction l with
  | nil => simp
  | cons b t ih => simp [List.contains_cons, ih]

/-- Membership gives a `get?` index. -/
theorem mem_get?_idx (l : List Nat) (a : Nat) (h : a ∈ l) : ∃ n, l.get? n = some a := by
  induction l with
  | nil => simp at h
  | cons b t ih =>
    rcases (by simpa using h : a = b ∨ a ∈ t) with hab | hm
    · exact ⟨0, by simp [hab]⟩
    · obtain ⟨n, hn⟩ := ih hm
      exact ⟨n + 1, by simpa using hn⟩

/-- A `get?` index gives membership. -/
theorem mem_of_get? (l : List Nat) (n : Nat) (a : Nat) (h : l.get? n = some a) : a ∈ l := by
  induction l generalizing n with
  | nil => simp at h
  | cons b t ih =>
    cases n with
    | zero => simp at h; simp [h]
    | succ n2 => exact List.mem_cons_of_mem b (ih n2 (by simpa using h))

/-- `find?` returns the value at the least index satisfying the
predicate: every earlier entry falsifies it. -/
theorem find?_min_char {α : Type} (p : α → Bool) (l : List α) (x : α)
    (h : l.find? p = some x) :
    ∃ i, i < l.length ∧ l.get? i = some x ∧ p x = true ∧
      ∀ t, t < i → ∀ z, l.get? t = some z → p z = false := by
  induction l with
  | nil => simp at h
  | cons a tl ih =>
    cases hpa : p a with
    | true =>
      rw [List.find?_cons_of_pos _ hpa] at h
      have hax : a = x := by simpa using h
      subst hax
      exact ⟨0, by simp, by simp, hpa, fun t ht => by omega⟩
    | false =>
      rw [List.find?_cons_of_neg _ (by simp [hpa])] at h
      obtain ⟨i, hlen, hget, hpx, hmin⟩ := ih h
      refine ⟨i + 1, by simpa using hlen, by simpa using hget, hpx, ?_⟩
      intro t ht z hz
      cases t with
      | zero =>
        have : z = a := by simpa using hz.symm
        rw [this]
        exact hpa
      | succ t2 => exact hmin t2 (by omega) z (by simpa using hz)

/-- A successful run of the path loop appends a parent chain to the
path array: the result length is the old length plus the chain length,
the array positions `len, …, len2 - 1` hold the chain entries and all
earlier positions are untouched. -/
theorem pathLoop_char (ctx : AniseContext) :
    ∀ fuel prev path len len2 path2,
      ctx.tryEphemerisPathLoop fuel prev path len = .ok (len2, path2) →
      len + fuel ≤ path.length →
      ∃ cs : List Nat, IsPathChain ctx prev cs ∧ len2 = len + cs.length ∧
        cs.length ≤ fuel ∧ path2.length = path.length ∧
        (∀ t, t < cs.length → path2.get? (len + t) = some (some (cs.getD t 0))) ∧
        (∀ p, p < len → path2.get? p = path.get? p) := by
  intro fuel
  induction fuel with
  | zero =>
    intro prev path len len2 path2 h hlen
    simp [AniseContext.tryEphemerisPathLoop] at h
  | succ fuel ih =>
    intro prev path len len2 path2 h hlen
    rw [AniseContext.tryEphemerisPathLoop] at h
    cases h1 : ctx.index_for_hash prev with
    | error e => simp [h1] at h
    | ok idx =>
      simp only [h1] at h
      cases h2 : ctx.try_ephemeris_data idx with
      | error e => simp [h2] at h
      | ok parent_ephem =>
        simp only [h2] at h
        have hlt : len < path.length := by omega
        have hpar : parent_of ctx prev = .ok parent_ephem.parent_ephemeris_hash := by
          simp [parent_of, h1, h2]
        by_cases hssb : parent_ephem.parent_ephemeris_hash = SOLAR_SYSTEM_BARYCENTER
        · rw [if_pos hssb] at h
          obtain ⟨hl2, hp2⟩ : len + 1 = len2 ∧
              path.set len (some parent_ephem.parent_ephemeris_hash) = path2 := by
            have hpair := Except.ok.inj h
            exact ⟨congrArg Prod.fst hpair, congrArg Prod.snd hpair⟩
          refine ⟨[parent_ephem.parent_ephemeris_hash], ?_, by simpa using hl2.symm,
            by simp, by rw [← hp2]; simp, ?_, ?_⟩
          · exact ⟨by simp, by simpa using hpar, by simp, by simp,
              by simp [chainStops, hssb]⟩
          · intro t ht
            have ht0 : t = 0 := by simpa using ht
            subst ht0
            rw [← hp2]
            simpa using get?_set_self path len _ hlt
          · intro p hp
            rw [← hp2]
            exact get?_set_other path len p _ (by omega)
        · rw [if_neg hssb] at h
          have hcons : ∀ rest_ok :
              ctx.tryEphemerisPathLoop fuel parent_ephem.parent_ephemeris_hash
                (path.set len (some parent_ephem.parent_ephemeris_hash)) (len + 1) =
                .ok (len2, path2),
              ¬ chainStops ctx parent_ephem.parent_ephemeris_hash →
              ∃ cs : List Nat, IsPathChain ctx prev cs ∧ len2 = len + cs.length ∧
                cs.length ≤ fuel + 1 ∧ path2.length = path.length ∧
                (∀ t, t < cs.length → path2.get? (len + t) = some (some (cs.getD t 0))) ∧
                (∀ p, p < len → path2.get? p = path.get? p) := by
            intro hrec hstop
            obtain ⟨cs, hchain, hl2, hcsf, hplen, hent, hpres⟩ :=
              ih parent_ephem.parent_ephemeris_hash _ (len + 1) len2 path2 hrec
                (by rw [List.length_set]; omega)
            have hcsne : 0 < cs.length := by
              cases cs with
              | nil => exact absurd rfl hchain.ne
              | cons a l => simp
            refine ⟨parent_ephem.parent_ephemeris_hash :: cs, ?_, by simp; omega,
              by simp; omega, by rw [hplen, List.length_set], ?_, ?_⟩
            · refine ⟨by simp, by simpa using hpar, ?_, ?_, ?_⟩
              · intro t htl
                cases t with
                | zero => simpa using hchain.head
                | succ t2 =>
                  have := hchain.step t2 (by simp at htl; omega)
                  simpa using this
              · intro t htl
                cases t with
                | zero => simpa using hstop
                | succ t2 =>
                  have := hchain.mid t2 (by simp at htl; omega)
                  simpa using this
              · have hlen1 : (parent_ephem.parent_ephemeris_hash :: cs).length - 1 =
                    cs.length := by simp
                rw [hlen1]
                have : (parent_ephem.parent_ephemeris_hash :: cs).getD cs.length 0 =
                    cs.getD (cs.length - 1) 0 := by
                  cases cs with
                  | nil => exact absurd rfl hchain.ne
                  | cons a l => simp
                rw [this]
                exact hchain.last
            · intro t ht
              cases t with
              | zero =>
                have := hpres len (by omega)
                rw [Nat.add_zero, this]
                simpa using get?_set_self path len _ hlt
              | succ t2 =>
                have := hent t2 (by simp at ht; omega)
                have harith : len + (t2 + 1) = (len + 1) + t2 := by omega
                rw [harith, this]
                cases cs with
                | nil => exact absurd rfl hchain.ne
                | cons a l => simp
            · intro p hp
              rw [hpres p (by omega)]
              exact get?_set_other path len p _ (by omega)
          cases h3 : ctx.index_for_hash parent_ephem.parent_ephemeris_hash with
          | error e =>
            simp only [h3] at h
            by_cases he : e = AniseError.ItemNotFound
            · rw [if_pos he] at h
              obtain ⟨hl2, hp2⟩ : len + 1 = len2 ∧
                  path.set len (some parent_ephem.parent_ephemeris_hash) = path2 := by
                have hpair := Except.ok.inj h
                exact ⟨congrArg Prod.fst hpair, congrArg Prod.snd hpair⟩
              subst he
              refine ⟨[parent_ephem.parent_ephemeris_hash], ?_, by simpa using hl2.symm,
                by simp, by rw [← hp2]; simp, ?_, ?_⟩
              · exact ⟨by simp, by simpa using hpar, by simp, by simp,
                  by simp [chainStops, h3]⟩
              · intro t ht
                have ht0 : t = 0 := by simpa using ht
                subst ht0
                rw [← hp2]
                simpa using get?_set_self path len _ hlt
              · intro p hp
                rw [← hp2]
                exact get?_set_other path len p _ (by omega)
            · rw [if_neg he] at h
              exact hcons h (by simp [chainStops, hssb, h3, he])
          | ok idx2 =>
            simp only [h3] at h
            exact hcons h (by simp [chainStops, hssb, h3])

/-- `try_ephemeris_path` level corollary of `pathLoop_char`. -/
theorem path_char (ctx : AniseContext) (source : Frame) (len : Nat) (path : List (Option Nat))
    (h : ctx.try_ephemeris_path source = .ok (len, path)) :
    ∃ cs : List Nat, IsPathChain ctx source.ephemeris_hash cs ∧ len = cs.length ∧
      cs.length ≤ MAX_TREE_DEPTH ∧ path.length = MAX_TREE_DEPTH ∧
      (∀ t, t < cs.length → path.get? t = some (some (cs.getD t 0))) := by
  obtain ⟨cs, hc, hl, hf, hpl, hent, _⟩ :=
    pathLoop_char ctx MAX_TREE_DEPTH source.ephemeris_hash _ 0 len path h
      (by simp [MAX_TREE_DEPTH])
  exact ⟨cs, hc, by simpa using hl, hf, by simpa using hpl, fun t ht => by simpa using hent t ht⟩

/-- Indexing commutes with `map`. -/
theorem get?_map_gen {α β : Type} (f : α → β) (l : List α) (n : Nat) :
    (l.map f).get? n = (l.get? n).map f := by
  induction l generalizing n with
  | nil => rfl
  | cons hd tl ih =>
    cases n with
    | zero => rfl
    | succ n => exact ih n

/-- Taking the recorded prefix of the path array recovers the chain
(wrapped in `some`). -/
theorem take_eq_map_some (path : List (Option Nat)) (cs : List Nat)
    (_hlen : cs.length ≤ path.length)
    (hent : ∀ t, t < cs.length → path.get? t = some (some (cs.getD t 0))) :
    path.take cs.length = cs.map some := by
  apply ext_by_get?
  intro n
  by_cases hn : n < cs.length
  · rw [get?_take_lt path cs.length n hn, hent n hn, get?_map_gen,
      get?_eq_getD cs n 0 hn]
    rfl
  · have h1 : (path.take cs.length).get? n = none := by
      apply List.get?_eq_none.mpr
      simp
      omega
    have h2 : (cs.map some).get? n = none := by
      apply List.get?_eq_none.mpr
      simp
      omega
    rw [h1, h2]

/-- Entries of two parent chains over the same context that agree at
one position agree from there on. -/
theorem chain_shift {ctx : AniseContext} {s1 s2 : Nat} {cs1 cs2 : List Nat}
    (h1 : IsPathChain ctx s1 cs1) (h2 : IsPathChain ctx s2 cs2)
    (i j : Nat) (heq : cs1.getD i 0 = cs2.getD j 0) :
    ∀ t, i + t < cs1.length → j + t < cs2.length →
      cs1.getD (i + t) 0 = cs2.getD (j + t) 0 := by
  intro t
  induction t with
  | zero => intro _ _; simpa using heq
  | succ t ih =>
    intro ht1 ht2
    have hp1 := h1.step (i + t) (by omega)
    have hp2 := h2.step (j + t) (by omega)
    have hv := ih (by omega) (by omega)
    rw [hv] at hp1
    exact Except.ok.inj (hp1.symm.trans hp2)

/-- Auxiliary for `chain_align`: matching positions cannot leave a
strictly shorter tail on one side, because the shorter chain stops
while the longer one must continue at the mirrored position. -/
theorem chain_align_aux {ctx : AniseContext} {s1 s2 : Nat} {cs1 cs2 : List Nat}
    (h1 : IsPathChain ctx s1 cs1) (h2 : IsPathChain ctx s2 cs2)
    (i j : Nat) (hi : i < cs1.length) (hj : j < cs2.length)
    (heq : cs1.getD i 0 = cs2.getD j 0)
    (hlt : cs1.length - i < cs2.length - j) : False := by
  have hshift := chain_shift h1 h2 i j heq (cs1.length - 1 - i) (by omega) (by omega)
  have harith : i + (cs1.length - 1 - i) = cs1.length - 1 := by omega
  rw [harith] at hshift
  have hlast := h1.last
  rw [hshift] at hlast
  exact h2.mid (j + (cs1.length - 1 - i)) (by omega) hlast

/-- Matching positions of two parent chains over the same context
leave tails of the same length. -/
theorem chain_align {ctx : AniseContext} {s1 s2 : Nat} {cs1 cs2 : List Nat}
    (h1 : IsPathChain ctx s1 cs1) (h2 : IsPathChain ctx s2 cs2)
    (i j : Nat) (hi : i < cs1.length) (hj : j < cs2.length)
    (heq : cs1.getD i 0 = cs2.getD j 0) :
    cs1.length - i = cs2.length - j := by
  by_contra hne
  rcases Nat.lt_or_ge (cs1.length - i) (cs2.length - j) with hlt | hge
  · exact chain_align_aux h1 h2 i j hi hj heq hlt
  · exact chain_align_aux h2 h1 j i hj hi heq.symm (by omega)

/-- If the scan of chain 1 against chain 2 finds a first common
element, the scan in the opposite order finds the same element. -/
theorem find_common_some {ctx : AniseContext} {s1 s2 : Nat} {cs1 cs2 : List Nat}
    (h1 : IsPathChain ctx s1 cs1) (h2 : IsPathChain ctx s2 cs2) (x : Nat)
    (hx : cs1.find? (fun a => cs2.contains a) = some x) :
    cs2.find? (fun a => cs1.contains a) = some x := by
  obtain ⟨i0, hi0len, hi0get, hpx, hmin1⟩ := find?_min_char _ _ _ hx
  have hxmem2 : x ∈ cs2 := (contains_iff_mem cs2 x).mp hpx
  have hxmem1 : x ∈ cs1 := mem_of_get? cs1 i0 x hi0get
  obtain ⟨j, hjget⟩ := mem_get?_idx cs2 x hxmem2
  have hjlen : j < cs2.length := get?_some_lt cs2 j x hjget
  cases hy : cs2.find? (fun a => cs1.contains a) with
  | none =>
    exfalso
    have hnone := List.find?_eq_none.mp hy x hxmem2
    simp at hnone
    exact hnone hxmem1
  | some y =>
    obtain ⟨j0, hj0len, hj0get, hpy, hmin2⟩ := find?_min_char _ _ _ hy
    have hymem1 : y ∈ cs1 := (contains_iff_mem cs1 y).mp hpy
    obtain ⟨iy, hiyget⟩ := mem_get?_idx cs1 y hymem1
    have hiylen : iy < cs1.length := get?_some_lt cs1 iy y hiyget
    have hgd1 : cs1.getD i0 0 = x := getD_of_get? cs1 i0 x 0 hi0get
    have hgd2 : cs2.getD j 0 = x := getD_of_get? cs2 j x 0 hjget
    have hgd3 : cs2.getD j0 0 = y := getD_of_get? cs2 j0 y 0 hj0get
    have hgd4 : cs1.getD iy 0 = y := getD_of_get? cs1 iy y 0 hiyget
    have ha1 : cs1.length - i0 = cs2.length - j :=
      chain_align h1 h2 i0 j hi0len hjlen (by rw [hgd1, hgd2])
    have ha2 : cs2.length - j0 = cs1.length - iy :=
      chain_align h2 h1 j0 iy hj0len hiylen (by rw [hgd3, hgd4])
    have hiy_ge : i0 ≤ iy := by
      by_contra hcon
      have hfalse := hmin1 iy (by omega) y hiyget
      have hytrue : cs2.contains y = true :=
        (contains_iff_mem cs2 y).mpr (mem_of_get? cs2 j0 y hj0get)
      rw [hfalse] at hytrue
      exact Bool.false_ne_true hytrue
    have hj_ge : j0 ≤ j := by
      by_contra hcon
      have hfalse := hmin2 j (by omega) x hjget
      have hxtrue : cs1.contains x = true := (contains_iff_mem cs1 x).mpr hxmem1
      rw [hfalse] at hxtrue
      exact Bool.false_ne_true hxtrue
    have hjj0 : j = j0 := by omega
    rw [hjj0] at hjget
    exact hj0get.symm.trans hjget

/-- If the scan of chain 1 against chain 2 finds no common element,
neither does the scan in the opposite order. -/
theorem find_common_none (cs1 cs2 : List Nat)
    (hx : cs1.find? (fun a => cs2.contains a) = none) :
    cs2.find? (fun a => cs1.contains a) = none := by
  rw [List.find?_eq_none] at hx ⊢
  intro y hy
  simp only [Bool.not_eq_true]
  by_contra hcon
  simp at hcon
  have hymem1 : y ∈ cs1 := by
    have := hcon
    simpa [contains_iff_mem] using this
  have := hx y hymem1
  simp at this
  exact this hy

/-- `scanPaths` over chains wrapped in `some` is the plain first-common
scan of the chains. -/
theorem scan_map_some (cs1 cs2 : List Nat) :
    scanPaths (cs1.map some) (cs2.map some) =
      (cs1.find? (fun a => cs2.contains a)).map some := by
  unfold scanPaths
  induction cs1 with
  | nil => simp
  | cons a tl ih =>
    rw [List.map_cons]
    cases hca : cs2.contains a with
    | true =>
      rw [List.find?_cons_of_pos _ (by rw [contains_map_some]; exact hca),
        List.find?_cons_of_pos _ hca]
      rfl
    | false =>
      have hmem : a ∉ cs2 := fun hm => by
        rw [(contains_iff_mem cs2 a).mpr hm] at hca
        cases hca
      rw [List.find?_cons_of_neg _
          (by simpa [contains_map_some, contains_iff_mem] using hmem),
        List.find?_cons_of_neg _ (by simpa [contains_iff_mem] using hmem)]
      exact ih

/-- The root found by `find_ephemeris_root` does not depend on the
argument order: if the `(A, B)` order returns `Ok(r)`, so does the
`(B, A)` order. -/
theorem find_root_ok_symm (ctx : AniseContext) (A B : Frame) (r : Nat)
    (h : ctx.find_ephemeris_root A B = some (.ok r)) :
    ctx.find_ephemeris_root B A = some (.ok r) := by
  unfold AniseContext.find_ephemeris_root at h ⊢
  by_cases hAB : A = B
  · subst hAB
    rw [if_pos rfl] at h ⊢
    exact h
  · rw [if_neg hAB] at h
    rw [if_neg (fun hBA => hAB hBA.symm)]
    cases hpA : ctx.try_ephemeris_path A with
    | error e => simp [hpA] at h
    | ok pA =>
      obtain ⟨lenA, pathA⟩ := pA
      simp only [hpA] at h
      cases hpB : ctx.try_ephemeris_path B with
      | error e => simp [hpB] at h
      | ok pB =>
        obtain ⟨lenB, pathB⟩ := pB
        simp only [hpB] at h
        simp only [hpA, hpB]
        obtain ⟨csA, hcA, hlA, hfA, hplA, hentA⟩ := path_char ctx A lenA pathA hpA
        obtain ⟨csB, hcB, hlB, hfB, hplB, hentB⟩ := path_char ctx B lenB pathB hpB
        have hApos : 0 < csA.length := List.length_pos.mpr hcA.ne
        have hBpos : 0 < csB.length := List.length_pos.mpr hcB.ne
        rw [if_neg (by omega), if_neg (by omega), if_neg (by omega)] at h
        rw [if_neg (by omega), if_neg (by omega), if_neg (by omega)]
        have htakeA : pathA.take lenA = csA.map some := by
          rw [hlA]
          exact take_eq_map_some pathA csA (by omega) (fun t ht => hentA t ht)
        have htakeB : pathB.take lenB = csB.map some := by
          rw [hlB]
          exact take_eq_map_some pathB csB (by omega) (fun t ht => hentB t ht)
        rcases Nat.lt_trichotomy lenA lenB with hlt | heq | hgt
        · rw [if_neg (by omega), htakeA, htakeB, scan_map_some] at h
          rw [if_pos (by omega), htakeA, htakeB, scan_map_some]
          exact h
        · rw [if_neg (by omega), htakeA, htakeB, scan_map_some] at h
          rw [if_neg (by omega), htakeA, htakeB, scan_map_some]
          cases hfx : csA.find? (fun a => csB.contains a) with
          | none =>
            rw [hfx] at h
            simp at h
          | some x =>
            rw [hfx] at h
            simp at h
            rw [find_common_some hcA hcB x hfx]
            simp [h]
        · rw [if_pos (by omega), htakeA, htakeB, scan_map_some] at h
          rw [if_neg (by omega), htakeA, htakeB, scan_map_some]
          exact h

/-- Inversion of a successful `parent_of` step. -/
theorem parent_of_ok_inv (ctx : AniseContext) (h p : Nat) (hp : parent_of ctx h = .ok p) :
    ∃ idx pe, ctx.index_for_hash h = .ok idx ∧ ctx.try_ephemeris_data idx = .ok pe ∧
      pe.parent_ephemeris_hash = p := by
  unfold parent_of at hp
  cases h1 : ctx.index_for_hash h with
  | error e => simp [h1] at hp
  | ok idx =>
    simp only [h1] at hp
    cases h2 : ctx.try_ephemeris_data idx with
    | error e => simp [h2] at hp
    | ok pe =>
      simp only [h2] at hp
      exact ⟨idx, pe, rfl, h2, Except.ok.inj hp⟩

/-- When the parent chain from the start hash keeps resolving and
never reaches a stopping hash, the path loop exhausts its fuel and
fails with `MaxTreeDepth`. -/
theorem pathLoop_deep (ctx : AniseContext) :
    ∀ fuel (g : Nat → Nat) (path : List (Option Nat)) (len : Nat),
      (∀ t, t < fuel → parent_of ctx (g t) = .ok (g (t + 1)) ∧ ¬ chainStops ctx (g (t + 1))) →
      ctx.tryEphemerisPathLoop fuel (g 0) path len = .error .MaxTreeDepth := by
  intro fuel
  induction fuel with
  | zero => intro g path len hg; rfl
  | succ fuel ih =>
    intro g path len hg
    obtain ⟨hpar, hstop⟩ := hg 0 (by omega)
    obtain ⟨idx, pe, h1, h2, h3⟩ := parent_of_ok_inv ctx (g 0) (g 1) hpar
    rw [AniseContext.tryEphemerisPathLoop]
    simp only [h1, h2, h3]
    have hne0 : ¬ (g 1 = SOLAR_SYSTEM_BARYCENTER) := fun hz => hstop (Or.inl hz)
    rw [if_neg hne0]
    cases h4 : ctx.index_for_hash (g 1) with
    | error e =>
      have hnee : ¬ (e = AniseError.ItemNotFound) := by
        intro he
        subst he
        exact hstop (Or.inr h4)
      have hrec := ih (fun t => g (t + 1)) (path.set len (some (g 1))) (len + 1)
        (fun t ht => hg (t + 1) (by omega))
      simpa [hnee] using hrec
    | ok idx2 =>
      have hrec := ih (fun t => g (t + 1)) (path.set len (some (g 1))) (len + 1)
        (fun t ht => hg (t + 1) (by omega))
      simpa using hrec

/-- C3.  The claim states that two frames in disjoint loaded trees
fail with the `DisjointRoots` integrity error.  On `disjointCtx` the
paths of the Mars-like frame (hash 10) and the Jupiter-like frame
(hash 20) both compute without error and share no identifier, yet
`find_ephemeris_root` — and therefore `translate_from_to` — returns
`IntegrityError(DataMissing)`: the `DisjointRoots` return sits in the
`from_len == 0 && to_len == 0` branch, and a successful
`try_ephemeris_path` always returns a path of length at least one. -/
theorem C3_disjoint_yields_DataMissing :
    disjointCtx.try_ephemeris_path ⟨10, 0⟩ =
      .ok (1, [some 99, none, none, none, none, none, none, none]) ∧
    disjointCtx.try_ephemeris_path ⟨20, 0⟩ =
      .ok (1, [some 88, none, none, none, none, none, none, none]) ∧
    disjointCtx.find_ephemeris_root ⟨10, 0⟩ ⟨20, 0⟩ =
      some (.error (.IntegrityError .DataMissing)) ∧
    disjointCtx.find_ephemeris_root ⟨10, 0⟩ ⟨20, 0⟩ ≠
      some (.error (.IntegrityError (.DisjointRoots ⟨10, 0⟩ ⟨20, 0⟩))) ∧
    disjointCtx.translate_from_to (2 * MAX_TREE_DEPTH) ⟨10, 0⟩ ⟨20, 0⟩ 0 =
      some (.error (.IntegrityError .DataMissing)) := by
  refine ⟨by decide, by decide, by decide, by decide, by decide⟩

/-- C7.  `try_ephemeris_path` either returns a parent path of length
between 1 and `MAX_TREE_DEPTH = 8` whose last element is the Solar
System Barycentre (hash 0) or an identifier with no entry in the
loaded data, or — when the parent chain keeps resolving without
reaching such a hash for 8 steps — fails with `MaxTreeDepth`. -/
theorem C7_path_bound :
    (∀ (ctx : AniseContext) (source : Frame) (len : Nat) (path : List (Option Nat)),
      ctx.try_ephemeris_path source = .ok (len, path) →
        1 ≤ len ∧ len ≤ MAX_TREE_DEPTH ∧
          ∃ h, path.get? (len - 1) = some (some h) ∧
            (h = SOLAR_SYSTEM_BARYCENTER ∨ ctx.index_for_hash h = .error .ItemNotFound)) ∧
    (∀ (ctx : AniseContext) (source : Frame) (g : Nat → Nat),
      g 0 = source.ephemeris_hash →
      (∀ t, t < MAX_TREE_DEPTH →
        parent_of ctx (g t) = .ok (g (t + 1)) ∧
          g (t + 1) ≠ SOLAR_SYSTEM_BARYCENTER ∧
          ctx.index_for_hash (g (t + 1)) ≠ .error .ItemNotFound) →
      ctx.try_ephemeris_path source = .error .MaxTreeDepth) := by
  constructor
  · intro ctx source len path h
    obtain ⟨cs, hc, hl, hf, hpl, hent⟩ := path_char ctx source len path h
    have hpos : 0 < cs.length := List.length_pos.mpr hc.ne
    refine ⟨by omega, by omega, cs.getD (cs.length - 1) 0, ?_, ?_⟩
    · rw [hl]
      exact hent (cs.length - 1) (by omega)
    · exact hc.last
  · intro ctx source g hg0 hsteps
    unfold AniseContext.try_ephemeris_path
    rw [← hg0]
    exact pathLoop_deep ctx MAX_TREE_DEPTH g _ 0
      (fun t ht =>
        ⟨(hsteps t ht).1, fun hs =>
          hs.elim (hsteps t ht).2.1 (hsteps t ht).2.2⟩)

/-- C7, witnessed: the short path of `disjointCtx` from hash 10 ends at
an unloaded identifier, and the nine-deep chain of `deepCtx` overflows
the bound. -/
theorem C7_path_bound_witness :
    (1 ≤ 1 ∧ 1 ≤ MAX_TREE_DEPTH ∧
      ∃ h, [some 99, none, none, none, none, none, none, none].get? (1 - 1) =
          some (some h) ∧
        (h = SOLAR_SYSTEM_BARYCENTER ∨
          disjointCtx.index_for_hash h = .error .ItemNotFound)) ∧
    deepCtx.try_ephemeris_path ⟨1, 0⟩ = .error .MaxTreeDepth :=
  ⟨C7_path_bound.1 disjointCtx ⟨10, 0⟩ 1
      [some 99, none, none, none, none, none, none, none] (by decide),
    C7_path_bound.2 deepCtx ⟨1, 0⟩ (fun t => t + 1) (by decide)
      (by decide)⟩

/-- C5.  If `translate_from_to(A, B, t)` returns `Ok((p, v))` then
`translate_from_to(B, A, t)` returns `Ok((-p, -v))`, the exact
componentwise negation, for any recursion-depth budget: the common
root found is the same for both argument orders
(`find_root_ok_symm`) and the recursive results are the same two
calls, subtracted in the opposite order. -/
theorem C5_translate_antisymmetry (ctx : AniseContext) (fuel : Nat) (A B : Frame)
    (epoch : ℚ) (p v : ℚ × ℚ × ℚ)
    (h : ctx.translate_from_to fuel A B epoch = some (.ok (p, v))) :
    ctx.translate_from_to fuel B A epoch = some (.ok (-p, -v)) := by
  cases fuel with
  | zero => simp [AniseContext.translate_from_to] at h
  | succ fuel =>
    rw [AniseContext.translate_from_to] at h ⊢
    by_cases hAB : A = B
    · subst hAB
      rw [if_pos rfl] at h ⊢
      have hpv := Except.ok.inj (Option.some.inj h)
      have hp : p = (0, 0, 0) := (congrArg Prod.fst hpv).symm
      have hv : v = (0, 0, 0) := (congrArg Prod.snd hpv).symm
      rw [hp, hv]
      norm_num
    · rw [if_neg hAB] at h
      rw [if_neg (fun hBA => hAB hBA.symm)]
      cases hroot : ctx.find_ephemeris_root A B with
      | none => rw [hroot] at h; simp at h
      | some rt =>
        cases rt with
        | error e => rw [hroot] at h; simp at h
        | ok ephem_root =>
          simp only [hroot] at h
          rw [find_root_ok_symm ctx A B ephem_root hroot]
          cases hrec1 : ctx.translate_from_to fuel A (A.with_ephem ephem_root) epoch with
          | none => rw [hrec1] at h; simp at h
          | some r1 =>
            cases r1 with
            | error e => rw [hrec1] at h; simp at h
            | ok pv1 =>
              obtain ⟨p1, v1⟩ := pv1
              simp only [hrec1] at h
              cases hrec2 : ctx.translate_from_to fuel B (B.with_ephem ephem_root) epoch with
              | none => rw [hrec2] at h; simp at h
              | some r2 =>
                cases r2 with
                | error e => rw [hrec2] at h; simp at h
                | ok pv2 =>
                  obtain ⟨p2, v2⟩ := pv2
                  simp only [hrec2] at h
                  simp only [hrec2, hrec1]
                  have hpv := Except.ok.inj (Option.some.inj h)
                  have hp : p = p1 - p2 := (congrArg Prod.fst hpv).symm
                  have hv : v = v1 - v2 := (congrArg Prod.snd hpv).symm
                  rw [hp, hv, neg_sub, neg_sub]

/-- C5, witnessed at equal frames (the only case in which this
fragment can complete a translation): the result is the zero pair and
its own negation. -/
theorem C5_translate_antisymmetry_witness :
    disjointCtx.translate_from_to 1 ⟨10, 0⟩ ⟨10, 0⟩ 0 =
        some (.ok (((0 : ℚ), (0 : ℚ), (0 : ℚ)), ((0 : ℚ), (0 : ℚ), (0 : ℚ)))) ∧
      disjointCtx.translate_from_to 1 ⟨10, 0⟩ ⟨10, 0⟩ 0 =
        some (.ok (-((0 : ℚ), (0 : ℚ), (0 : ℚ)), -((0 : ℚ), (0 : ℚ), (0 : ℚ)))) :=
  ⟨by decide,
    C5_translate_antisymmetry disjointCtx 1 ⟨10, 0⟩ ⟨10, 0⟩ 0 _ _ (by decide)⟩

/-- C6.  The claim states that `load_from_bytes` returns a value or an
error on every byte buffer and rejects truncated buffers as a parse
failure.  In fact the very first statement slices
`&bytes[..FileRecord::SIZE]`, which panics whenever the buffer holds
fewer than 1024 bytes, for every choice of the sub-parsers and of the
receiving almanac. -/
theorem C6_load_truncated_panics {α β γ δ ε : Type} (parts : LoaderParts α β γ δ ε)
    (self : Almanac α β γ δ ε) (bytes : List Nat) (h : bytes.length < RCRD_LEN) :
    Almanac.load_from_bytes parts self bytes = none := by
  unfold Almanac.load_from_bytes
  rw [if_neg (by omega)]

/-- C6, witnessed on the empty buffer with the trivial loader parts. -/
theorem C6_load_truncated_panics_witness :
    ([] : List Nat).length < RCRD_LEN ∧
      Almanac.load_from_bytes unitParts unitAlmanac [] = none :=
  ⟨by decide, C6_load_truncated_panics unitParts unitAlmanac [] (by decide)⟩

/-- C8.  `with_spacecraft_data` returns an almanac whose spacecraft
dataset equals the argument and whose other four fields equal those of
the receiver; `with_euler_parameters` does the same for the Euler
parameter dataset.  (The receiver itself is untouched: the model is a
pure function of the `&self` borrow.) -/
theorem C8_with_datasets {α β γ δ ε : Type} (a : Almanac α β γ δ ε) (d : δ) (e : ε) :
    ((a.with_spacecraft_data d).spacecraft_data = d ∧
      (a.with_spacecraft_data d).spk_data = a.spk_data ∧
      (a.with_spacecraft_data d).bpc_data = a.bpc_data ∧
      (a.with_spacecraft_data d).planetary_data = a.planetary_data ∧
      (a.with_spacecraft_data d).euler_param_data = a.euler_param_data) ∧
    ((a.with_euler_parameters e).euler_param_data = e ∧
      (a.with_euler_parameters e).spk_data = a.spk_data ∧
      (a.with_euler_parameters e).bpc_data = a.bpc_data ∧
      (a.with_euler_parameters e).planetary_data = a.planetary_data ∧
      (a.with_euler_parameters e).spacecraft_data = a.spacecraft_data) := by
  exact ⟨⟨rfl, rfl, rfl, rfl, rfl⟩, ⟨rfl, rfl, rfl, rfl, rfl⟩⟩

/-! ### Generic loop lemmas for the checked interpreter -/

/-- Postcondition propagation for `optFor`: if each successful body
step preserves `P`, a successful loop run takes `P lo` to
`P (lo + cnt)`. -/
theorem optFor_post {σ : Type} (body : Nat → σ → Option σ) (P : Nat → σ → Prop) :
    ∀ cnt lo s s2,
      (∀ i si si2, lo ≤ i → i < lo + cnt → P i si → body i si = some si2 → P (i + 1) si2) →
      optFor body lo cnt s = some s2 → P lo s → P (lo + cnt) s2 := by
  intro cnt
  induction cnt with
  | zero =>
    intro lo s s2 hstep hrun hP
    have : s = s2 := by simpa [optFor] using hrun
    subst this
    simpa using hP
  | succ cnt ih =>
    intro lo s s2 hstep hrun hP
    rw [optFor] at hrun
    rw [Option.bind_eq_some] at hrun
    obtain ⟨s1, hbody, hrest⟩ := hrun
    have hP1 : P (lo + 1) s1 := hstep lo s s1 (by omega) (by omega) hP hbody
    have := ih (lo + 1) s1 s2
      (fun i si si2 hi1 hi2 => hstep i si si2 (by omega) (by omega)) hrest hP1
    have harith : lo + 1 + cnt = lo + (cnt + 1) := by omega
    rwa [harith] at this

/-- Totality for `optFor`: if under `P` each body step succeeds and
preserves `P`, the loop succeeds. -/
theorem optFor_total {σ : Type} (body : Nat → σ → Option σ) (P : Nat → σ → Prop) :
    ∀ cnt lo s,
      (∀ i si, lo ≤ i → i < lo + cnt → P i si → ∃ si2, body i si = some si2 ∧ P (i + 1) si2) →
      P lo s → ∃ s2, optFor body lo cnt s = some s2 ∧ P (lo + cnt) s2 := by
  intro cnt
  induction cnt with
  | zero =>
    intro lo s hstep hP
    exact ⟨s, by simp [optFor], by simpa using hP⟩
  | succ cnt ih =>
    intro lo s hstep hP
    obtain ⟨s1, hbody, hP1⟩ := hstep lo s (by omega) (by omega) hP
    obtain ⟨s2, hrun, hP2⟩ := ih (lo + 1) s1
      (fun i si hi1 hi2 => hstep i si (by omega) (by omega)) hP1
    refine ⟨s2, ?_, ?_⟩
    · rw [optFor, Option.bind_eq_some]
      exact ⟨s1, hbody, hrun⟩
    · have harith : lo + 1 + cnt = lo + (cnt + 1) := by omega
      rwa [harith] at hP2

/-- Success and effect of a checked write. -/
theorem wset_eq_some (w : List ℚ) (i : Nat) (v : ℚ) (w2 : List ℚ) :
    wset w i v = some w2 ↔ i < w.length ∧ w2 = w.set i v := by
  unfold wset
  by_cases h : i < w.length
  · simp [h, eq_comm]
  · simp [h]

/-! ### Unfolding lemmas for the reference table -/

/-- `colInitV` at an even row `2t`. -/
theorem colInitV_even (xvals yvals : List ℚ) (x : ℚ) (t : Nat) :
    colInitV xvals yvals x (2 * t) =
      ((xvals.getD t 0 - x) * yvals.getD (2 * t - 2) 0 +
          (x - xvals.getD (t - 1) 0) * yvals.getD (2 * t) 0) /
        (xvals.getD t 0 - xvals.getD (t - 1) 0) := by
  unfold colInitV
  rw [if_neg (by omega)]
  rw [Nat.mul_div_cancel_left t (by norm_num)]

/-- `colInitV` at an odd row `2t + 1`. -/
theorem colInitV_odd (xvals yvals : List ℚ) (x : ℚ) (t : Nat) :
    colInitV xvals yvals x (2 * t + 1) =
      yvals.getD (2 * t + 1) 0 * (x - xvals.getD t 0) + yvals.getD (2 * t) 0 := by
  unfold colInitV
  rw [if_pos (by omega)]
  have hdiv : (2 * t + 1) / 2 = t := by omega
  rw [hdiv]

/-- `colInitD` at an even row `2t`. -/
theorem colInitD_even (xvals yvals : List ℚ) (x : ℚ) (t : Nat) :
    colInitD xvals yvals x (2 * t) =
      (yvals.getD (2 * t) 0 - yvals.getD (2 * t - 2) 0) /
        (xvals.getD t 0 - xvals.getD (t - 1) 0) := by
  unfold colInitD
  rw [if_neg (by omega)]
  rw [Nat.mul_div_cancel_left t (by norm_num)]

/-- `colInitD` at an odd row `2t + 1`. -/
theorem colInitD_odd (xvals yvals : List ℚ) (x : ℚ) (t : Nat) :
    colInitD xvals yvals x (2 * t + 1) = yvals.getD (2 * t + 1) 0 := by
  unfold colInitD
  rw [if_pos (by omega)]
  have hdiv : (2 * t + 1) / 2 = t := by omega
  rw [hdiv]

/-- The recurrence satisfied by `tableV` for columns `j ≥ 2`. -/
theorem tableV_step (xvals yvals : List ℚ) (x : ℚ) (j i : Nat) (hj : 2 ≤ j) :
    tableV xvals yvals x j i =
      ((zv xvals (i + j) - x) * tableV xvals yvals x (j - 1) i +
          (x - zv xvals i) * tableV xvals yvals x (j - 1) (i + 1)) /
        (zv xvals (i + j) - zv xvals i) := by
  obtain ⟨j2, rfl⟩ : ∃ j2, j = j2 + 2 := ⟨j - 2, by omega⟩
  rfl

/-- The recurrence satisfied by `tableD` for columns `j ≥ 2`. -/
theorem tableD_step (xvals yvals : List ℚ) (x : ℚ) (j i : Nat) (hj : 2 ≤ j) :
    tableD xvals yvals x j i =
      ((zv xvals (i + j) - x) * tableD xvals yvals x (j - 1) i +
          (x - zv xvals i) * tableD xvals yvals x (j - 1) (i + 1) +
          (tableV xvals yvals x (j - 1) (i + 1) - tableV xvals yvals x (j - 1) i)) /
        (zv xvals (i + j) - zv xvals i) := by
  obtain ⟨j2, rfl⟩ : ∃ j2, j = j2 + 2 := ⟨j - 2, by omega⟩
  rfl

/-! ### Phase 1: the copy loop -/

/-- Effect of one copy-loop write on the invariant. -/
theorem hrmP1_state (yvals : List ℚ) (i : Nat) (w : List ℚ) (yv : ℚ)
    (hP : hrmP1Inv yvals i w) (hi : 1 ≤ i)
    (hyv : yvals.get? (i - 1) = some yv) (hidx : i - 1 < w.length) :
    hrmP1Inv yvals (i + 1) (w.set (i - 1) yv) := by
  obtain ⟨hlen, h256, hylen, hcopied, hzero⟩ := hP
  have hylt : i - 1 < yvals.length := get?_some_lt yvals (i - 1) yv hyv
  refine ⟨by rw [List.length_set, hlen], by omega, by omega, ?_, ?_⟩
  · intro p hp
    by_cases hpe : p = i - 1
    · subst hpe
      rw [get?_set_self w (i - 1) yv hidx, hyv]
    · rw [get?_set_other w (i - 1) p yv (by omega)]
      exact hcopied p (by omega)
  · intro p hp1 hp2
    rw [get?_set_other w (i - 1) p yv (by omega)]
    exact hzero p (by omega) hp2

/-- A successful copy-loop step preserves the invariant. -/
theorem hrmP1_step_post (yvals : List ℚ) (L i : Nat) (w w2 : List ℚ)
    (hi : 1 ≤ i) (hP : hrmP1Inv yvals i w)
    (hbody : hrmintPhase1Body yvals (L * 2) (L * 2 + 1) i w = some w2) :
    hrmP1Inv yvals (i + 1) w2 := by
  unfold hrmintPhase1Body at hbody
  obtain ⟨yv, hyv, hset⟩ := Option.bind_eq_some.mp hbody
  rw [wset_eq_some] at hset
  obtain ⟨hlt, rfl⟩ := hset
  have hidx : i + L * 2 - (L * 2 + 1) = i - 1 := by omega
  rw [hidx] at hlt ⊢
  exact hrmP1_state yvals i w yv hP hi hyv hlt

/-- Under the invariant (and adequate `yvals` length and row bound),
a copy-loop step succeeds. -/
theorem hrmP1_step_total (yvals : List ℚ) (L i : Nat) (w : List ℚ)
    (hi : 1 ≤ i) (hin : i ≤ 2 * L) (hy : 2 * L ≤ yvals.length) (hL : L ≤ 64)
    (hP : hrmP1Inv yvals i w) :
    ∃ w2, hrmintPhase1Body yvals (L * 2) (L * 2 + 1) i w = some w2 ∧
      hrmP1Inv yvals (i + 1) w2 := by
  obtain ⟨hlen, h256, hylen, hcopied, hzero⟩ := hP
  have hylt : i - 1 < yvals.length := by omega
  have hyv := get?_eq_getD yvals (i - 1) 0 hylt
  have hidx : i + L * 2 - (L * 2 + 1) = i - 1 := by omega
  have hlt : i - 1 < w.length := by omega
  refine ⟨w.set (i - 1) (yvals.getD (i - 1) 0), ?_, ?_⟩
  · unfold hrmintPhase1Body
    refine Option.bind_eq_some.mpr ⟨yvals.getD (i - 1) 0, hyv, ?_⟩
    rw [wset_eq_some, hidx]
    exact ⟨hlt, rfl⟩
  · exact hrmP1_state yvals i w _ ⟨hlen, h256, hylen, hcopied, hzero⟩ hi hyv hlt

/-! ### Phase 2: the first-degree loop -/

/-- Effect of iteration `i` of the first-degree loop on the
invariant. -/
theorem hrmP2_state (xvals yvals : List ℚ) (x : ℚ) (i : Nat) (w : List ℚ)
    (hi : 1 ≤ i) (hiL : i + 1 ≤ xvals.length)
    (hP : hrmP2Inv xvals yvals x i w)
    (hidx : 2 * xvals.length + 2 * i - 1 < w.length) :
    hrmP2Inv xvals yvals x (i + 1) (hrmP2Next xvals yvals x i w) := by
  obtain ⟨hlen, hV, hraw, hD, hzero⟩ := hP
  have hLb : 2 ≤ xvals.length := by omega
  unfold hrmP2Next
  refine ⟨by simp [List.length_set, hlen], ?_, ?_, ?_, ?_⟩
  · intro q hq1 hq2
    rcases Nat.lt_trichotomy q (2 * i - 1) with hqlt | hqeq | hqgt
    · rw [get?_set_other _ _ _ _ (by omega), get?_set_other _ _ _ _ (by omega),
        get?_set_other _ _ _ _ (by omega), get?_set_other _ _ _ _ (by omega)]
      exact hV q hq1 (by omega)
    · subst hqeq
      rw [show 2 * i - 1 - 1 = 2 * i - 2 from by omega]
      rw [get?_set_self _ _ _ (by simp [List.length_set]; omega)]
      rw [show (2 * i - 1 : Nat) = 2 * (i - 1) + 1 from by omega, colInitV_odd]
      rw [show 2 * (i - 1) + 1 = 2 * i - 1 from by omega,
        show 2 * (i - 1) = 2 * i - 2 from by omega]
    · have hq2i : q = 2 * i := by omega
      subst hq2i
      rw [get?_set_other _ _ _ _ (by omega)]
      rw [get?_set_self _ _ _ (by simp [List.length_set]; omega)]
      rw [colInitV_even]
  · intro p hp1 hp2
    rw [get?_set_other _ _ _ _ (by omega), get?_set_other _ _ _ _ (by omega),
      get?_set_other _ _ _ _ (by omega), get?_set_other _ _ _ _ (by omega)]
    exact hraw p (by omega) hp2
  · intro q hq1 hq2
    rcases Nat.lt_trichotomy q (2 * i - 1) with hqlt | hqeq | hqgt
    · rw [get?_set_other _ _ _ _ (by omega), get?_set_other _ _ _ _ (by omega),
        get?_set_other _ _ _ _ (by omega), get?_set_other _ _ _ _ (by omega)]
      exact hD q hq1 (by omega)
    · subst hqeq
      rw [show 2 * i - 1 + 2 * xvals.length - 1 = 2 * xvals.length + 2 * i - 2 from by omega]
      rw [get?_set_other _ _ _ _ (by omega), get?_set_other _ _ _ _ (by omega),
        get?_set_other _ _ _ _ (by omega)]
      rw [get?_set_self _ _ _ (by omega)]
      rw [show (2 * i - 1 : Nat) = 2 * (i - 1) + 1 from by omega, colInitD_odd]
    · have hq2i : q = 2 * i := by omega
      subst hq2i
      rw [show 2 * i + 2 * xvals.length - 1 = 2 * xvals.length + 2 * i - 1 from by omega]
      rw [get?_set_other _ _ _ _ (by omega), get?_set_other _ _ _ _ (by omega)]
      rw [get?_set_self _ _ _ (by simp [List.length_set]; omega)]
      rw [colInitD_even]
  · intro p hp1 hp2
    rw [get?_set_other _ _ _ _ (by omega), get?_set_other _ _ _ _ (by omega),
      get?_set_other _ _ _ _ (by omega), get?_set_other _ _ _ _ (by omega)]
    exact hzero p (by omega) hp2


/-- Under the invariant, iteration `i` of the first-degree loop
succeeds and produces exactly the four writes of `hrmP2Next`. -/
theorem hrmP2_step_eq (xvals yvals : List ℚ) (x : ℚ) (i : Nat) (w : List ℚ)
    (hi : 1 ≤ i) (hiL : i + 1 ≤ xvals.length)
    (hy : 2 * xvals.length ≤ yvals.length)
    (hP : hrmP2Inv xvals yvals x i w)
    (hidx : 2 * xvals.length + 2 * i - 1 < w.length) :
    hrmintPhase2Body xvals x (xvals.length * 2) (xvals.length * 2 + 1) i w =
      some (hrmP2Next xvals yvals x i w) := by
  obtain ⟨hlen, hV, hraw, hD, hzero⟩ := hP
  have hLb : 2 ≤ xvals.length := by omega
  have e1 : i * 2 - 1 + 1 + xvals.length * 2 - (xvals.length * 2 + 1) = 2 * i - 1 := by
    omega
  have e2 : i * 2 - 1 + xvals.length * 2 * 2 - (xvals.length * 2 + 1) =
      2 * xvals.length + 2 * i - 2 := by omega
  have e3 : i * 2 - 1 + 1 + 1 + xvals.length * 2 - (xvals.length * 2 + 1) = 2 * i := by
    omega
  have e4 : i * 2 - 1 + xvals.length * 2 - (xvals.length * 2 + 1) = 2 * i - 2 := by
    omega
  have e5 : i * 2 - 1 + 1 + xvals.length * 2 * 2 - (xvals.length * 2 + 1) =
      2 * xvals.length + 2 * i - 1 := by omega
  have hx1 : xvals.get? i = some (xvals.getD i 0) := get?_eq_getD _ _ _ (by omega)
  have hx0 : xvals.get? (i - 1) = some (xvals.getD (i - 1) 0) :=
    get?_eq_getD _ _ _ (by omega)
  have hr1 : w.get? (2 * i - 1) = some (yvals.getD (2 * i - 1) 0) := by
    rw [hraw (2 * i - 1) (by omega) (by omega)]
    exact get?_eq_getD yvals _ 0 (by omega)
  have hr2 : w.get? (2 * i) = some (yvals.getD (2 * i) 0) := by
    rw [hraw (2 * i) (by omega) (by omega)]
    exact get?_eq_getD yvals _ 0 (by omega)
  have hr0 : w.get? (2 * i - 2) = some (yvals.getD (2 * i - 2) 0) := by
    rw [hraw (2 * i - 2) (by omega) (by omega)]
    exact get?_eq_getD yvals _ 0 (by omega)
  unfold hrmintPhase2Body
  refine Option.bind_eq_some.mpr ⟨xvals.getD i 0, hx1, ?_⟩
  refine Option.bind_eq_some.mpr ⟨xvals.getD (i - 1) 0, hx0, ?_⟩
  refine Option.bind_eq_some.mpr ⟨yvals.getD (2 * i - 1) 0, ?_, ?_⟩
  · show w.get? (i * 2 - 1 + 1 + xvals.length * 2 - (xvals.length * 2 + 1)) = _
    rw [e1]
    exact hr1
  refine Option.bind_eq_some.mpr
    ⟨w.set (2 * xvals.length + 2 * i - 2) (yvals.getD (2 * i - 1) 0), ?_, ?_⟩
  · rw [wset_eq_some, e2]
    exact ⟨by omega, rfl⟩
  refine Option.bind_eq_some.mpr ⟨yvals.getD (2 * i) 0, ?_, ?_⟩
  · show (w.set (2 * xvals.length + 2 * i - 2) (yvals.getD (2 * i - 1) 0)).get?
        (i * 2 - 1 + 1 + 1 + xvals.length * 2 - (xvals.length * 2 + 1)) = _
    rw [e3, get?_set_other _ _ _ _ (by omega)]
    exact hr2
  refine Option.bind_eq_some.mpr ⟨yvals.getD (2 * i - 2) 0, ?_, ?_⟩
  · show (w.set (2 * xvals.length + 2 * i - 2) (yvals.getD (2 * i - 1) 0)).get?
        (i * 2 - 1 + xvals.length * 2 - (xvals.length * 2 + 1)) = _
    rw [e4, get?_set_other _ _ _ _ (by omega)]
    exact hr0
  refine Option.bind_eq_some.mpr
    ⟨(w.set (2 * xvals.length + 2 * i - 2) (yvals.getD (2 * i - 1) 0)).set
        (2 * xvals.length + 2 * i - 1)
        ((yvals.getD (2 * i) 0 - yvals.getD (2 * i - 2) 0) /
          (xvals.getD i 0 - xvals.getD (i - 1) 0)), ?_, ?_⟩
  · rw [wset_eq_some, e5]
    exact ⟨by simp [List.length_set]; omega, rfl⟩
  refine Option.bind_eq_some.mpr ⟨yvals.getD (2 * i - 1) 0, ?_, ?_⟩
  · show (List.set _ _ _).get?
        (i * 2 - 1 + 1 + xvals.length * 2 - (xvals.length * 2 + 1)) = _
    rw [e1, get?_set_other _ _ _ _ (by omega), get?_set_other _ _ _ _ (by omega)]
    exact hr1
  refine Option.bind_eq_some.mpr ⟨yvals.getD (2 * i - 2) 0, ?_, ?_⟩
  · show (List.set _ _ _).get?
        (i * 2 - 1 + xvals.length * 2 - (xvals.length * 2 + 1)) = _
    rw [e4, get?_set_other _ _ _ _ (by omega), get?_set_other _ _ _ _ (by omega)]
    exact hr0
  refine Option.bind_eq_some.mpr ⟨yvals.getD (2 * i) 0, ?_, ?_⟩
  · show (List.set _ _ _).get?
        (i * 2 - 1 + 1 + 1 + xvals.length * 2 - (xvals.length * 2 + 1)) = _
    rw [e3, get?_set_other _ _ _ _ (by omega), get?_set_other _ _ _ _ (by omega)]
    exact hr2
  refine Option.bind_eq_some.mpr
    ⟨((w.set (2 * xvals.length + 2 * i - 2) (yvals.getD (2 * i - 1) 0)).set
          (2 * xvals.length + 2 * i - 1)
          ((yvals.getD (2 * i) 0 - yvals.getD (2 * i - 2) 0) /
            (xvals.getD i 0 - xvals.getD (i - 1) 0))).set (2 * i - 1)
        (((xvals.getD i 0 - x) * yvals.getD (2 * i - 2) 0 +
            (x - xvals.getD (i - 1) 0) * yvals.getD (2 * i) 0) /
          (xvals.getD i 0 - xvals.getD (i - 1) 0)), ?_, ?_⟩
  · rw [wset_eq_some, e1]
    refine ⟨by simp [List.length_set]; omega, rfl⟩
  · rw [wset_eq_some, e4]
    refine ⟨by simp [List.length_set]; omega, ?_⟩
    rfl


/-- A successful first-degree-loop step preserves the invariant (the
required index bound is extracted from the successful writes). -/
theorem hrmP2_step_post (xvals yvals : List ℚ) (x : ℚ) (i : Nat) (w w2 : List ℚ)
    (hi : 1 ≤ i) (hiL : i + 1 ≤ xvals.length)
    (hy : 2 * xvals.length ≤ yvals.length)
    (hP : hrmP2Inv xvals yvals x i w)
    (hbody : hrmintPhase2Body xvals x (xvals.length * 2) (xvals.length * 2 + 1) i w =
      some w2) :
    hrmP2Inv xvals yvals x (i + 1) w2 := by
  by_cases hidx : 2 * xvals.length + 2 * i - 1 < w.length
  · rw [hrmP2_step_eq xvals yvals x i w hi hiL hy hP hidx] at hbody
    have hw2 := Option.some.inj hbody
    subst hw2
    exact hrmP2_state xvals yvals x i w hi hiL hP hidx
  · exfalso
    unfold hrmintPhase2Body at hbody
    obtain ⟨xvi, hxvi, hbody⟩ := Option.bind_eq_some.mp hbody
    obtain ⟨xvim, hxvim, hbody⟩ := Option.bind_eq_some.mp hbody
    obtain ⟨vthis, hvthis, hbody⟩ := Option.bind_eq_some.mp hbody
    obtain ⟨wA, hwA, hbody⟩ := Option.bind_eq_some.mp hbody
    obtain ⟨vnext, hvnext, hbody⟩ := Option.bind_eq_some.mp hbody
    obtain ⟨vprev, hvprev, hbody⟩ := Option.bind_eq_some.mp hbody
    obtain ⟨wB, hwB, hrest⟩ := Option.bind_eq_some.mp hbody
    rw [wset_eq_some] at hwA
    obtain ⟨hwAlt, hwAeq⟩ := hwA
    rw [wset_eq_some] at hwB
    obtain ⟨hwBlt, hwBeq⟩ := hwB
    rw [hwAeq, List.length_set] at hwBlt
    omega


/-! ### Phase 3: the last-column fix-up -/

/-- Under the end state of the first-degree loop, the fix-up succeeds
and produces exactly the two writes of `hrmP3Next`. -/
theorem hrmP3_eq (xvals yvals : List ℚ) (x : ℚ) (w : List ℚ)
    (hLb : 2 ≤ xvals.length)
    (hy : 2 * xvals.length ≤ yvals.length)
    (hP : hrmP2Inv xvals yvals x xvals.length w)
    (hidx : 4 * xvals.length - 2 < w.length) :
    hrmintPhase3 xvals x xvals.length (xvals.length * 2) (xvals.length * 2 + 1) w =
      some (hrmP3Next xvals yvals x w) := by
  obtain ⟨hlen, hV, hraw, hD, hzero⟩ := hP
  have e1 : xvals.length * 2 + xvals.length * 2 - (xvals.length * 2 + 1) =
      2 * xvals.length - 1 := by omega
  have e2 : xvals.length * 2 - 1 + xvals.length * 2 * 2 - (xvals.length * 2 + 1) =
      4 * xvals.length - 2 := by omega
  have e3 : xvals.length * 2 - 1 + xvals.length * 2 - (xvals.length * 2 + 1) =
      2 * xvals.length - 2 := by omega
  have hr1 : w.get? (2 * xvals.length - 1) = some (yvals.getD (2 * xvals.length - 1) 0) := by
    rw [hraw (2 * xvals.length - 1) (by omega) (by omega)]
    exact get?_eq_getD yvals _ 0 (by omega)
  have hr0 : w.get? (2 * xvals.length - 2) = some (yvals.getD (2 * xvals.length - 2) 0) := by
    rw [hraw (2 * xvals.length - 2) (by omega) (by omega)]
    exact get?_eq_getD yvals _ 0 (by omega)
  unfold hrmintPhase3
  refine Option.bind_eq_some.mpr ⟨yvals.getD (2 * xvals.length - 1) 0, ?_, ?_⟩
  · show w.get? (xvals.length * 2 + xvals.length * 2 - (xvals.length * 2 + 1)) = _
    rw [e1]
    exact hr1
  refine Option.bind_eq_some.mpr
    ⟨w.set (4 * xvals.length - 2) (yvals.getD (2 * xvals.length - 1) 0), ?_, ?_⟩
  · rw [wset_eq_some, e2]
    exact ⟨by omega, rfl⟩
  refine Option.bind_eq_some.mpr ⟨yvals.getD (2 * xvals.length - 1) 0, ?_, ?_⟩
  · show (List.set _ _ _).get?
        (xvals.length * 2 + xvals.length * 2 - (xvals.length * 2 + 1)) = _
    rw [e1, get?_set_other _ _ _ _ (by omega)]
    exact hr1
  refine Option.bind_eq_some.mpr ⟨xvals.getD (xvals.length - 1) 0, ?_, ?_⟩
  · exact get?_eq_getD xvals _ 0 (by omega)
  refine Option.bind_eq_some.mpr ⟨yvals.getD (2 * xvals.length - 2) 0, ?_, ?_⟩
  · show (List.set _ _ _).get?
        (xvals.length * 2 - 1 + xvals.length * 2 - (xvals.length * 2 + 1)) = _
    rw [e3, get?_set_other _ _ _ _ (by omega)]
    exact hr0
  · rw [wset_eq_some, e3]
    refine ⟨by simp [List.length_set]; omega, ?_⟩
    rfl

/-- The fix-up state satisfies the column-one table invariant. -/
theorem hrmP3_state (xvals yvals : List ℚ) (x : ℚ) (w : List ℚ)
    (hLb : 2 ≤ xvals.length)
    (hP : hrmP2Inv xvals yvals x xvals.length w)
    (hidx : 4 * xvals.length - 2 < w.length) :
    hrmQInv xvals yvals x 1 (hrmP3Next xvals yvals x w) := by
  obtain ⟨hlen, hV, hraw, hD, hzero⟩ := hP
  unfold hrmP3Next
  refine ⟨by simp [List.length_set, hlen], ?_⟩
  intro q hq1 hq2
  constructor
  · show _ = some (colInitV xvals yvals x q)
    rcases Nat.lt_trichotomy q (2 * xvals.length - 1) with hqlt | hqeq | hqgt
    · rw [get?_set_other _ _ _ _ (by omega), get?_set_other _ _ _ _ (by omega)]
      exact hV q hq1 (by omega)
    · subst hqeq
      rw [show 2 * xvals.length - 1 - 1 = 2 * xvals.length - 2 from by omega]
      rw [get?_set_self _ _ _ (by simp [List.length_set]; omega)]
      rw [show (2 * xvals.length - 1 : Nat) = 2 * (xvals.length - 1) + 1 from by omega,
        colInitV_odd]
      rw [show 2 * (xvals.length - 1) + 1 = 2 * xvals.length - 1 from by omega,
        show 2 * (xvals.length - 1) = 2 * xvals.length - 2 from by omega]
    · omega
  · show _ = some (colInitD xvals yvals x q)
    rcases Nat.lt_trichotomy q (2 * xvals.length - 1) with hqlt | hqeq | hqgt
    · rw [get?_set_other _ _ _ _ (by omega), get?_set_other _ _ _ _ (by omega)]
      exact hD q hq1 (by omega)
    · subst hqeq
      rw [show 2 * xvals.length - 1 + 2 * xvals.length - 1 = 4 * xvals.length - 2 from
        by omega]
      rw [get?_set_other _ _ _ _ (by omega)]
      rw [get?_set_self _ _ _ (by omega)]
      rw [show (2 * xvals.length - 1 : Nat) = 2 * (xvals.length - 1) + 1 from by omega,
        colInitD_odd]
    · omega

/-- A successful fix-up yields the column-one table invariant. -/
theorem hrmP3_post (xvals yvals : List ℚ) (x : ℚ) (w w2 : List ℚ)
    (hLb : 2 ≤ xvals.length)
    (hy : 2 * xvals.length ≤ yvals.length)
    (hP : hrmP2Inv xvals yvals x xvals.length w)
    (hbody : hrmintPhase3 xvals x xvals.length (xvals.length * 2) (xvals.length * 2 + 1) w =
      some w2) :
    hrmQInv xvals yvals x 1 w2 := by
  by_cases hidx : 4 * xvals.length - 2 < w.length
  · rw [hrmP3_eq xvals yvals x w hLb hy hP hidx] at hbody
    have hw2 := Option.some.inj hbody
    subst hw2
    exact hrmP3_state xvals yvals x w hLb hP hidx
  · exfalso
    unfold hrmintPhase3 at hbody
    obtain ⟨v2n, hv2n, hbody⟩ := Option.bind_eq_some.mp hbody
    obtain ⟨wA, hwA, hbody⟩ := Option.bind_eq_some.mp hbody
    rw [wset_eq_some] at hwA
    obtain ⟨hwAlt, hwAeq⟩ := hwA
    omega


/-! ### Phase 4: the main table loop -/

/-- Effect of processing row `i` of column `j` on the row invariant. -/
theorem hrmP4_state (xvals yvals : List ℚ) (x : ℚ) (j i : Nat) (w : List ℚ)
    (hj : 2 ≤ j) (hi : 1 ≤ i) (hij : i + j ≤ 2 * xvals.length)
    (hP : hrmRInv xvals yvals x j i w)
    (hidx : i + 2 * xvals.length - 1 < w.length) :
    hrmRInv xvals yvals x j (i + 1) (hrmP4Next xvals yvals x j i w) := by
  obtain ⟨hlen, hnew, hold⟩ := hP
  have hLb : 2 ≤ xvals.length := by omega
  unfold hrmP4Next
  refine ⟨by simp [List.length_set, hlen], ?_, ?_⟩
  · intro q hq1 hq2
    rcases Nat.lt_trichotomy q i with hqlt | hqeq | hqgt
    · obtain ⟨hv, hd⟩ := hnew q hq1 hqlt
      constructor
      · rw [get?_set_other _ _ _ _ (by omega), get?_set_other _ _ _ _ (by omega)]
        exact hv
      · rw [get?_set_other _ _ _ _ (by omega), get?_set_other _ _ _ _ (by omega)]
        exact hd
    · subst hqeq
      constructor
      · rw [get?_set_self _ _ _ (by simp [List.length_set]; omega)]
        rw [tableV_step xvals yvals x j q hj]
      · rw [get?_set_other _ _ _ _ (by omega)]
        rw [get?_set_self _ _ _ (by omega)]
        rw [tableD_step xvals yvals x j q hj]
    · omega
  · intro q hq1 hq2
    obtain ⟨hv, hd⟩ := hold q (by omega) hq2
    constructor
    · rw [get?_set_other _ _ _ _ (by omega), get?_set_other _ _ _ _ (by omega)]
      exact hv
    · rw [get?_set_other _ _ _ _ (by omega), get?_set_other _ _ _ _ (by omega)]
      exact hd

/-- Under the row invariant, processing row `i` of column `j`
succeeds and produces exactly the two writes of `hrmP4Next`. -/
theorem hrmP4_step_eq (xvals yvals : List ℚ) (x : ℚ) (j i : Nat) (w : List ℚ)
    (hj : 2 ≤ j) (hi : 1 ≤ i) (hij : i + j ≤ 2 * xvals.length)
    (hP : hrmRInv xvals yvals x j i w)
    (hidx : i + 2 * xvals.length - 1 < w.length) :
    hrmintPhase4Body xvals x (xvals.length * 2) (xvals.length * 2 + 1) j i w =
      some (hrmP4Next xvals yvals x j i w) := by
  obtain ⟨hlen, hnew, hold⟩ := hP
  have hLb : 2 ≤ xvals.length := by omega
  have f1 : i + xvals.length * 2 * 2 - (xvals.length * 2 + 1) =
      i + 2 * xvals.length - 1 := by omega
  have f2 : i + 1 + xvals.length * 2 * 2 - (xvals.length * 2 + 1) =
      i + 1 + 2 * xvals.length - 1 := by omega
  have f3 : i + 1 + xvals.length * 2 - (xvals.length * 2 + 1) = i + 1 - 1 := by omega
  have f4 : i + xvals.length * 2 - (xvals.length * 2 + 1) = i - 1 := by omega
  obtain ⟨hvi, hdi⟩ := hold i (by omega) (by omega)
  obtain ⟨hvip, hdip⟩ := hold (i + 1) (by omega) (by omega)
  unfold hrmintPhase4Body
  refine Option.bind_eq_some.mpr ⟨zv xvals (i + j), ?_, ?_⟩
  · rw [show (i + j + 1) / 2 - 1 = (i + j - 1) / 2 from by omega]
    exact get?_eq_getD xvals _ 0 (by omega)
  refine Option.bind_eq_some.mpr ⟨zv xvals i, ?_, ?_⟩
  · rw [show (i + 1) / 2 - 1 = (i - 1) / 2 from by omega]
    exact get?_eq_getD xvals _ 0 (by omega)
  refine Option.bind_eq_some.mpr ⟨tableD xvals yvals x (j - 1) i, ?_, ?_⟩
  · show w.get? (i + xvals.length * 2 * 2 - (xvals.length * 2 + 1)) = _
    rw [f1]
    exact hdi
  refine Option.bind_eq_some.mpr ⟨tableD xvals yvals x (j - 1) (i + 1), ?_, ?_⟩
  · show w.get? (i + 1 + xvals.length * 2 * 2 - (xvals.length * 2 + 1)) = _
    rw [f2]
    exact hdip
  refine Option.bind_eq_some.mpr ⟨tableV xvals yvals x (j - 1) (i + 1), ?_, ?_⟩
  · show w.get? (i + 1 + xvals.length * 2 - (xvals.length * 2 + 1)) = _
    rw [f3]
    exact hvip
  refine Option.bind_eq_some.mpr ⟨tableV xvals yvals x (j - 1) i, ?_, ?_⟩
  · show w.get? (i + xvals.length * 2 - (xvals.length * 2 + 1)) = _
    rw [f4]
    exact hvi
  refine Option.bind_eq_some.mpr
    ⟨w.set (i + 2 * xvals.length - 1)
        (((zv xvals (i + j) - x) * tableD xvals yvals x (j - 1) i +
            (x - zv xvals i) * tableD xvals yvals x (j - 1) (i + 1) +
            (tableV xvals yvals x (j - 1) (i + 1) - tableV xvals yvals x (j - 1) i)) /
          (zv xvals (i + j) - zv xvals i)), ?_, ?_⟩
  · rw [wset_eq_some, f1]
    exact ⟨by omega, rfl⟩
  refine Option.bind_eq_some.mpr ⟨tableV xvals yvals x (j - 1) i, ?_, ?_⟩
  · show (List.set _ _ _).get? (i + xvals.length * 2 - (xvals.length * 2 + 1)) = _
    rw [f4, get?_set_other _ _ _ _ (by omega)]
    exact hvi
  refine Option.bind_eq_some.mpr ⟨tableV xvals yvals x (j - 1) (i + 1), ?_, ?_⟩
  · show (List.set _ _ _).get? (i + 1 + xvals.length * 2 - (xvals.length * 2 + 1)) = _
    rw [f3, get?_set_other _ _ _ _ (by omega)]
    exact hvip
  · rw [wset_eq_some, f4]
    refine ⟨by simp [List.length_set]; omega, ?_⟩
    rfl

/-- A successful row step preserves the row invariant. -/
theorem hrmP4_step_post (xvals yvals : List ℚ) (x : ℚ) (j i : Nat) (w w2 : List ℚ)
    (hj : 2 ≤ j) (hi : 1 ≤ i) (hij : i + j ≤ 2 * xvals.length)
    (hP : hrmRInv xvals yvals x j i w)
    (hbody : hrmintPhase4Body xvals x (xvals.length * 2) (xvals.length * 2 + 1) j i w =
      some w2) :
    hrmRInv xvals yvals x j (i + 1) w2 := by
  by_cases hidx : i + 2 * xvals.length - 1 < w.length
  · rw [hrmP4_step_eq xvals yvals x j i w hj hi hij hP hidx] at hbody
    have hw2 := Option.some.inj hbody
    subst hw2
    exact hrmP4_state xvals yvals x j i w hj hi hij hP hidx
  · exfalso
    unfold hrmintPhase4Body at hbody
    obtain ⟨a1, ha1, hbody⟩ := Option.bind_eq_some.mp hbody
    obtain ⟨a2, ha2, hbody⟩ := Option.bind_eq_some.mp hbody
    obtain ⟨a3, ha3, hbody⟩ := Option.bind_eq_some.mp hbody
    obtain ⟨a4, ha4, hbody⟩ := Option.bind_eq_some.mp hbody
    obtain ⟨a5, ha5, hbody⟩ := Option.bind_eq_some.mp hbody
    obtain ⟨a6, ha6, hbody⟩ := Option.bind_eq_some.mp hbody
    obtain ⟨wA, hwA, hbody⟩ := Option.bind_eq_some.mp hbody
    rw [wset_eq_some] at hwA
    obtain ⟨hwAlt, hwAeq⟩ := hwA
    omega


/-! ### Assembling the four phases -/

theorem get?_replicate {a : Type} (v : a) (n p : Nat) (h : p < n) :
    (List.replicate n v).get? p = some v := by
  induction n generalizing p with
  | zero => omega
  | succ n ih =>
    cases p with
    | zero => rfl
    | succ p => exact ih p (by omega)

/-- The all-zero buffer satisfies the copy-loop invariant at entry. -/
theorem hrmP1_init (yvals : List ℚ) : hrmP1Inv yvals 1 (List.replicate 256 0) := by
  refine ⟨by simp, by omega, by omega, ?_, ?_⟩
  · intro p hp
    omega
  · intro p hp1 hp2
    exact get?_replicate 0 256 p hp2

/-- The copy-loop exit state is the first-degree loop entry state. -/
theorem hrmP1_to_P2 (xvals yvals : List ℚ) (x : ℚ) (w : List ℚ)
    (hP : hrmP1Inv yvals (1 + 2 * xvals.length) w) :
    hrmP2Inv xvals yvals x 1 w := by
  obtain ⟨hlen, h256, hylen, hcopied, hzero⟩ := hP
  refine ⟨hlen, ?_, ?_, ?_, ?_⟩
  · intro q hq1 hq2
    omega
  · intro p hp1 hp2
    exact hcopied p (by omega)
  · intro q hq1 hq2
    omega
  · intro p hp1 hp2
    exact hzero p (by omega) hp2

/-- Under the first-degree loop invariant a step always succeeds. -/
theorem hrmP2_step_total (xvals yvals : List ℚ) (x : ℚ) (i : Nat) (w : List ℚ)
    (hi : 1 ≤ i) (hiL : i + 1 ≤ xvals.length) (hL : xvals.length ≤ 64)
    (hy : 2 * xvals.length ≤ yvals.length)
    (hP : hrmP2Inv xvals yvals x i w) :
    ∃ w2, hrmintPhase2Body xvals x (xvals.length * 2) (xvals.length * 2 + 1) i w =
        some w2 ∧ hrmP2Inv xvals yvals x (i + 1) w2 := by
  have hidx : 2 * xvals.length + 2 * i - 1 < w.length := by
    obtain ⟨hlen, _⟩ := hP
    omega
  exact ⟨hrmP2Next xvals yvals x i w,
    hrmP2_step_eq xvals yvals x i w hi hiL hy hP hidx,
    hrmP2_state xvals yvals x i w hi hiL hP hidx⟩

/-- Under the row invariant a main-loop step always succeeds. -/
theorem hrmP4_step_total (xvals yvals : List ℚ) (x : ℚ) (j i : Nat) (w : List ℚ)
    (hj : 2 ≤ j) (hi : 1 ≤ i) (hij : i + j ≤ 2 * xvals.length)
    (hL : xvals.length ≤ 64)
    (hP : hrmRInv xvals yvals x j i w) :
    ∃ w2, hrmintPhase4Body xvals x (xvals.length * 2) (xvals.length * 2 + 1) j i w =
        some w2 ∧ hrmRInv xvals yvals x j (i + 1) w2 := by
  have hidx : i + 2 * xvals.length - 1 < w.length := by
    obtain ⟨hlen, _⟩ := hP
    omega
  exact ⟨hrmP4Next xvals yvals x j i w,
    hrmP4_step_eq xvals yvals x j i w hj hi hij hP hidx,
    hrmP4_state xvals yvals x j i w hj hi hij hP hidx⟩

/-- Entering column `j`: the previous column state is the row
invariant at row 1. -/
theorem hrmP4_entry (xvals yvals : List ℚ) (x : ℚ) (j : Nat) (w : List ℚ)
    (hj : 1 ≤ j) (hQ : hrmQInv xvals yvals x (j - 1) w) :
    hrmRInv xvals yvals x j 1 w := by
  obtain ⟨hlen, hcol⟩ := hQ
  refine ⟨hlen, ?_, ?_⟩
  · intro q hq1 hq2
    omega
  · intro q hq1 hq2
    exact hcol q hq1 (by omega)

/-- Leaving column `j`: the row invariant past the last row is the
column state. -/
theorem hrmP4_exit (xvals yvals : List ℚ) (x : ℚ) (j : Nat) (w : List ℚ)
    (hR : hrmRInv xvals yvals x j (1 + (xvals.length * 2 - j)) w) :
    hrmQInv xvals yvals x j w := by
  obtain ⟨hlen, hnew, hold⟩ := hR
  refine ⟨hlen, ?_⟩
  intro q hq1 hq2
  exact hnew q hq1 (by omega)

/-- The inner row loop of column `j` preserves the column state. -/
theorem hrmP4_inner_post (xvals yvals : List ℚ) (x : ℚ) (j : Nat) (w w2 : List ℚ)
    (hj : 2 ≤ j) (hQ : hrmQInv xvals yvals x (j - 1) w)
    (hrun : optFor (hrmintPhase4Body xvals x (xvals.length * 2) (xvals.length * 2 + 1) j)
        1 (xvals.length * 2 - j) w = some w2) :
    hrmQInv xvals yvals x j w2 := by
  refine hrmP4_exit xvals yvals x j w2 ?_
  refine optFor_post _ (fun i si => hrmRInv xvals yvals x j i si)
    (xvals.length * 2 - j) 1 w w2 ?_ hrun
    (hrmP4_entry xvals yvals x j w (by omega) hQ)
  intro i si si2 hi1 hi2 hPi hbody
  exact hrmP4_step_post xvals yvals x j i si si2 hj hi1 (by omega) hPi hbody

/-- The inner row loop of column `j` terminates successfully. -/
theorem hrmP4_inner_total (xvals yvals : List ℚ) (x : ℚ) (j : Nat) (w : List ℚ)
    (hj : 2 ≤ j) (hL : xvals.length ≤ 64)
    (hQ : hrmQInv xvals yvals x (j - 1) w) :
    ∃ w2,
      optFor (hrmintPhase4Body xvals x (xvals.length * 2) (xvals.length * 2 + 1) j)
        1 (xvals.length * 2 - j) w = some w2 ∧ hrmQInv xvals yvals x j w2 := by
  have hstep : ∀ i si, 1 ≤ i → i < 1 + (xvals.length * 2 - j) →
      hrmRInv xvals yvals x j i si →
      ∃ si2, hrmintPhase4Body xvals x (xvals.length * 2) (xvals.length * 2 + 1) j i si =
          some si2 ∧ hrmRInv xvals yvals x j (i + 1) si2 := by
    intro i si hi1 hi2 hPi
    exact hrmP4_step_total xvals yvals x j i si hj hi1 (by omega) hL hPi
  obtain ⟨w2, hrun, hP⟩ := optFor_total _ (fun i si => hrmRInv xvals yvals x j i si)
    (xvals.length * 2 - j) 1 w hstep (hrmP4_entry xvals yvals x j w (by omega) hQ)
  exact ⟨w2, hrun, hrmP4_exit xvals yvals x j w2 hP⟩

/-- The outer column loop takes the table from column 1 to the last
column. -/
theorem hrmP4_outer_post (xvals yvals : List ℚ) (x : ℚ) (w w2 : List ℚ)
    (hL2 : 2 ≤ xvals.length) (hQ : hrmQInv xvals yvals x 1 w)
    (hrun : optFor
        (fun j wj =>
          optFor (hrmintPhase4Body xvals x (xvals.length * 2) (xvals.length * 2 + 1) j)
            1 (xvals.length * 2 - j) wj)
        2 (xvals.length * 2 - 2) w = some w2) :
    hrmQInv xvals yvals x (2 * xvals.length - 1) w2 := by
  have hstep : ∀ j sj sj2, 2 ≤ j → j < 2 + (xvals.length * 2 - 2) →
      hrmQInv xvals yvals x (j - 1) sj →
      optFor (hrmintPhase4Body xvals x (xvals.length * 2) (xvals.length * 2 + 1) j)
        1 (xvals.length * 2 - j) sj = some sj2 →
      hrmQInv xvals yvals x (j + 1 - 1) sj2 := by
    intro j sj sj2 hj1 hj2 hPj hbody
    exact hrmP4_inner_post xvals yvals x j sj sj2 hj1 hPj hbody
  have hfin : hrmQInv xvals yvals x (2 + (xvals.length * 2 - 2) - 1) w2 :=
    optFor_post _ (fun j wj => hrmQInv xvals yvals x (j - 1) wj)
      (xvals.length * 2 - 2) 2 w w2 hstep hrun hQ
  rw [show 2 + (xvals.length * 2 - 2) - 1 = 2 * xvals.length - 1 from by omega] at hfin
  exact hfin

/-- The outer column loop terminates successfully. -/
theorem hrmP4_outer_total (xvals yvals : List ℚ) (x : ℚ) (w : List ℚ)
    (hL2 : 2 ≤ xvals.length) (hL : xvals.length ≤ 64)
    (hQ : hrmQInv xvals yvals x 1 w) :
    ∃ w2,
      optFor
        (fun j wj =>
          optFor (hrmintPhase4Body xvals x (xvals.length * 2) (xvals.length * 2 + 1) j)
            1 (xvals.length * 2 - j) wj)
        2 (xvals.length * 2 - 2) w = some w2 ∧
      hrmQInv xvals yvals x (2 * xvals.length - 1) w2 := by
  have hstep : ∀ j sj, 2 ≤ j → j < 2 + (xvals.length * 2 - 2) →
      hrmQInv xvals yvals x (j - 1) sj →
      ∃ sj2,
        optFor (hrmintPhase4Body xvals x (xvals.length * 2) (xvals.length * 2 + 1) j)
          1 (xvals.length * 2 - j) sj = some sj2 ∧
        hrmQInv xvals yvals x (j + 1 - 1) sj2 := by
    intro j sj hj1 hj2 hPj
    exact hrmP4_inner_total xvals yvals x j sj hj1 hL hPj
  obtain ⟨w2, hrun, hP⟩ := optFor_total _ (fun j wj => hrmQInv xvals yvals x (j - 1) wj)
    (xvals.length * 2 - 2) 2 w hstep hQ
  have hP2 : hrmQInv xvals yvals x (2 + (xvals.length * 2 - 2) - 1) w2 := hP
  rw [show 2 + (xvals.length * 2 - 2) - 1 = 2 * xvals.length - 1 from by omega] at hP2
  exact ⟨w2, hrun, hP2⟩

/-- `hrmint_` with its local let-bindings expanded. -/
theorem hrmint_eq (xvals yvals : List ℚ) (x : ℚ) :
    hrmint_ xvals yvals x =
      if 1 < xvals.length then
        (do
          let w1 ← optFor (hrmintPhase1Body yvals (xvals.length * 2) (xvals.length * 2 + 1))
            1 (xvals.length * 2) (List.replicate 256 0)
          let w2 ← optFor (hrmintPhase2Body xvals x (xvals.length * 2) (xvals.length * 2 + 1))
            1 (xvals.length - 1) w1
          let w3 ← hrmintPhase3 xvals x xvals.length (xvals.length * 2)
            (xvals.length * 2 + 1) w2
          let w4 ← optFor
            (fun j wj =>
              optFor (hrmintPhase4Body xvals x (xvals.length * 2) (xvals.length * 2 + 1) j)
                1 (xvals.length * 2 - j) wj)
            2 (xvals.length * 2 - 2) w3
          let f ← wget w4 (xvals.length * 2 + 1 - (xvals.length * 2 + 1))
          let df ← wget w4 (xvals.length * 2 * 2 + 1 - (xvals.length * 2 + 1))
          pure (f, df))
      else none := rfl


/-- Any successful run of `hrmint_` returns exactly the top corner of
the divided-difference table. -/
theorem hrmint_some_eq (xvals yvals : List ℚ) (x : ℚ) (p : ℚ × ℚ)
    (h : hrmint_ xvals yvals x = some p) :
    2 ≤ xvals.length ∧ 2 * xvals.length ≤ yvals.length ∧
      p = (tableV xvals yvals x (2 * xvals.length - 1) 1,
        tableD xvals yvals x (2 * xvals.length - 1) 1) := by
  rw [hrmint_eq] at h
  by_cases hn : 1 < xvals.length
  · rw [if_pos hn] at h
    obtain ⟨w1, hw1, h⟩ := Option.bind_eq_some.mp h
    obtain ⟨w2, hw2, h⟩ := Option.bind_eq_some.mp h
    obtain ⟨w3, hw3, h⟩ := Option.bind_eq_some.mp h
    obtain ⟨w4, hw4, h⟩ := Option.bind_eq_some.mp h
    obtain ⟨f, hf, h⟩ := Option.bind_eq_some.mp h
    obtain ⟨df, hdf, h⟩ := Option.bind_eq_some.mp h
    have hp : (f, df) = p := Option.some.inj h
    have hstep1 : ∀ i si si2, 1 ≤ i → i < 1 + xvals.length * 2 → hrmP1Inv yvals i si →
        hrmintPhase1Body yvals (xvals.length * 2) (xvals.length * 2 + 1) i si = some si2 →
        hrmP1Inv yvals (i + 1) si2 := by
      intro i si si2 hi1 hi2 hPi hbody
      exact hrmP1_step_post yvals xvals.length i si si2 hi1 hPi hbody
    have hP1 : hrmP1Inv yvals (1 + xvals.length * 2) w1 :=
      optFor_post _ (fun i si => hrmP1Inv yvals i si) (xvals.length * 2) 1
        (List.replicate 256 0) w1 hstep1 hw1 (hrmP1_init yvals)
    rw [show 1 + xvals.length * 2 = 1 + 2 * xvals.length from by omega] at hP1
    have hylen : 2 * xvals.length ≤ yvals.length := by
      obtain ⟨_, _, hy, _, _⟩ := hP1
      omega
    have hP2entry := hrmP1_to_P2 xvals yvals x w1 hP1
    have hstep2 : ∀ i si si2, 1 ≤ i → i < 1 + (xvals.length - 1) →
        hrmP2Inv xvals yvals x i si →
        hrmintPhase2Body xvals x (xvals.length * 2) (xvals.length * 2 + 1) i si = some si2 →
        hrmP2Inv xvals yvals x (i + 1) si2 := by
      intro i si si2 hi1 hi2 hPi hbody
      exact hrmP2_step_post xvals yvals x i si si2 hi1 (by omega) hylen hPi hbody
    have hP2 : hrmP2Inv xvals yvals x (1 + (xvals.length - 1)) w2 :=
      optFor_post _ (fun i si => hrmP2Inv xvals yvals x i si) (xvals.length - 1) 1
        w1 w2 hstep2 hw2 hP2entry
    rw [show 1 + (xvals.length - 1) = xvals.length from by omega] at hP2
    have hQ1 : hrmQInv xvals yvals x 1 w3 :=
      hrmP3_post xvals yvals x w2 w3 (by omega) hylen hP2 hw3
    have hQfin : hrmQInv xvals yvals x (2 * xvals.length - 1) w4 :=
      hrmP4_outer_post xvals yvals x w3 w4 (by omega) hQ1 hw4
    obtain ⟨hlen4, hcol4⟩ := hQfin
    have hfv : w4.get? 0 = some (tableV xvals yvals x (2 * xvals.length - 1) 1) :=
      (hcol4 1 (by omega) (by omega)).1
    have hdv := (hcol4 1 (by omega) (by omega)).2
    rw [show 1 + 2 * xvals.length - 1 = 2 * xvals.length from by omega] at hdv
    unfold wget at hf hdf
    rw [show xvals.length * 2 + 1 - (xvals.length * 2 + 1) = 0 from by omega] at hf
    rw [show xvals.length * 2 * 2 + 1 - (xvals.length * 2 + 1) = 2 * xvals.length
      from by omega] at hdf
    have hfeq : f = tableV xvals yvals x (2 * xvals.length - 1) 1 :=
      Option.some.inj (hf.symm.trans hfv)
    have hdfeq : df = tableD xvals yvals x (2 * xvals.length - 1) 1 :=
      Option.some.inj (hdf.symm.trans hdv)
    exact ⟨hn, hylen, by rw [← hp, hfeq, hdfeq]⟩
  · rw [if_neg hn] at h
    exact Option.noConfusion h

/-- For up to 64 sorted abscissas with matching state data, `hrmint_`
always succeeds. -/
theorem hrmint_total (xvals yvals : List ℚ) (x : ℚ)
    (hL2 : 2 ≤ xvals.length) (hL : xvals.length ≤ 64)
    (hy : 2 * xvals.length ≤ yvals.length) :
    ∃ p, hrmint_ xvals yvals x = some p := by
  rw [hrmint_eq, if_pos (show 1 < xvals.length by omega)]
  have hstep1 : ∀ i si, 1 ≤ i → i < 1 + xvals.length * 2 → hrmP1Inv yvals i si →
      ∃ si2, hrmintPhase1Body yvals (xvals.length * 2) (xvals.length * 2 + 1) i si =
          some si2 ∧ hrmP1Inv yvals (i + 1) si2 := by
    intro i si hi1 hi2 hPi
    exact hrmP1_step_total yvals xvals.length i si hi1 (by omega) hy hL hPi
  obtain ⟨w1, hw1, hP1⟩ := optFor_total _ (fun i si => hrmP1Inv yvals i si)
    (xvals.length * 2) 1 (List.replicate 256 0) hstep1 (hrmP1_init yvals)
  have hP1b : hrmP1Inv yvals (1 + xvals.length * 2) w1 := hP1
  rw [show 1 + xvals.length * 2 = 1 + 2 * xvals.length from by omega] at hP1b
  have hP2entry := hrmP1_to_P2 xvals yvals x w1 hP1b
  have hstep2 : ∀ i si, 1 ≤ i → i < 1 + (xvals.length - 1) →
      hrmP2Inv xvals yvals x i si →
      ∃ si2, hrmintPhase2Body xvals x (xvals.length * 2) (xvals.length * 2 + 1) i si =
          some si2 ∧ hrmP2Inv xvals yvals x (i + 1) si2 := by
    intro i si hi1 hi2 hPi
    exact hrmP2_step_total xvals yvals x i si hi1 (by omega) hL hy hPi
  obtain ⟨w2, hw2, hP2⟩ := optFor_total _ (fun i si => hrmP2Inv xvals yvals x i si)
    (xvals.length - 1) 1 w1 hstep2 hP2entry
  have hP2b : hrmP2Inv xvals yvals x (1 + (xvals.length - 1)) w2 := hP2
  rw [show 1 + (xvals.length - 1) = xvals.length from by omega] at hP2b
  have hidx3 : 4 * xvals.length - 2 < w2.length := by
    obtain ⟨hlen, _⟩ := hP2b
    omega
  have hw3 := hrmP3_eq xvals yvals x w2 hL2 hy hP2b hidx3
  have hQ1 := hrmP3_state xvals yvals x w2 hL2 hP2b hidx3
  obtain ⟨w4, hw4, hQfin⟩ := hrmP4_outer_total xvals yvals x
    (hrmP3Next xvals yvals x w2) hL2 hL hQ1
  obtain ⟨hlen4, hcol4⟩ := hQfin
  have hfv : w4.get? 0 = some (tableV xvals yvals x (2 * xvals.length - 1) 1) :=
    (hcol4 1 (by omega) (by omega)).1
  have hdv := (hcol4 1 (by omega) (by omega)).2
  rw [show 1 + 2 * xvals.length - 1 = 2 * xvals.length from by omega] at hdv
  refine ⟨(tableV xvals yvals x (2 * xvals.length - 1) 1,
    tableD xvals yvals x (2 * xvals.length - 1) 1), ?_⟩
  refine Option.bind_eq_some.mpr ⟨w1, hw1, ?_⟩
  refine Option.bind_eq_some.mpr ⟨w2, hw2, ?_⟩
  refine Option.bind_eq_some.mpr ⟨hrmP3Next xvals yvals x w2, hw3, ?_⟩
  refine Option.bind_eq_some.mpr ⟨w4, hw4, ?_⟩
  refine Option.bind_eq_some.mpr
    ⟨tableV xvals yvals x (2 * xvals.length - 1) 1, ?_, ?_⟩
  · show wget w4 (xvals.length * 2 + 1 - (xvals.length * 2 + 1)) = _
    unfold wget
    rw [show xvals.length * 2 + 1 - (xvals.length * 2 + 1) = 0 from by omega]
    exact hfv
  refine Option.bind_eq_some.mpr
    ⟨tableD xvals yvals x (2 * xvals.length - 1) 1, ?_, ?_⟩
  · show wget w4 (xvals.length * 2 * 2 + 1 - (xvals.length * 2 + 1)) = _
    unfold wget
    rw [show xvals.length * 2 * 2 + 1 - (xvals.length * 2 + 1) = 2 * xvals.length
      from by omega]
    exact hdv
  · rfl


/-! ### Node evaluation of the divided-difference table -/

theorem tableV_one (xvals yvals : List ℚ) (x : ℚ) (i : Nat) :
    tableV xvals yvals x 1 i = colInitV xvals yvals x i := rfl

/-- Strictly sorted lists have strictly increasing entries. -/
theorem pairwise_getD_lt (l : List ℚ)
    (hsort : List.Pairwise (fun a b => a < b) l) :
    ∀ a b, a < b → b < l.length → l.getD a 0 < l.getD b 0 := by
  induction l with
  | nil =>
    intro a b hab hb
    simp at hb
  | cons hd tl ih =>
    intro a b hab hb
    rw [List.pairwise_cons] at hsort
    obtain ⟨hhd, htl⟩ := hsort
    cases a with
    | zero =>
      cases b with
      | zero => omega
      | succ b =>
        have hbl : b < tl.length := by
          simp at hb
          omega
        have hmem : tl.getD b 0 ∈ tl :=
          List.get?_mem (get?_eq_getD tl b 0 hbl)
        exact hhd _ hmem
    | succ a =>
      cases b with
      | zero => omega
      | succ b =>
        exact ih htl a b (by omega) (by simp at hb; omega)

/-- Evaluating the table at one of the (distinct) abscissas reproduces
the stored sample value, for any entry whose span covers that node. -/
theorem tableV_node (xvals yvals : List ℚ) (k : Nat)
    (hsort : List.Pairwise (fun a b => a < b) xvals) (hk : k < xvals.length) :
    ∀ j, 1 ≤ j → ∀ i, 1 ≤ i → i + j ≤ 2 * xvals.length →
      (∃ m, i ≤ m ∧ m ≤ i + j ∧ (m - 1) / 2 = k) →
      tableV xvals yvals (xvals.getD k 0) j i = yvals.getD (2 * k) 0 := by
  intro j
  induction j with
  | zero =>
    intro hj
    omega
  | succ j ih =>
    intro hj i hi hij hm
    obtain ⟨m, hm1, hm2, hmk⟩ := hm
    by_cases hj1 : j = 0
    · subst hj1
      rw [show (0 : Nat) + 1 = 1 from rfl] at hij hm2 ⊢
      rw [tableV_one]
      rcases Nat.even_or_odd i with he | ho
      · obtain ⟨t, ht⟩ := he
        subst ht
        rw [show t + t = 2 * t from by omega] at hij hm1 hm2 ⊢
        rw [colInitV_even]
        have hne : xvals.getD t 0 - xvals.getD (t - 1) 0 ≠ 0 :=
          sub_ne_zero.mpr
            (Ne.symm (ne_of_lt (pairwise_getD_lt xvals hsort (t - 1) t (by omega)
              (by omega))))
        have hkc : k = t - 1 ∨ k = t := by omega
        rcases hkc with hkc | hkc
        · subst hkc
          rw [sub_self, zero_mul, add_zero, mul_div_cancel_left₀ _ hne,
            show 2 * t - 2 = 2 * (t - 1) from by omega]
        · subst hkc
          rw [sub_self, zero_mul, zero_add, mul_div_cancel_left₀ _ hne]
      · obtain ⟨t, ht⟩ := ho
        subst ht
        obtain rfl : k = t := by omega
        rw [colInitV_odd, sub_self, mul_zero, zero_add]
    · rw [tableV_step xvals yvals (xvals.getD k 0) (j + 1) i (by omega)]
      simp only [Nat.add_sub_cancel]
      have hne : zv xvals (i + (j + 1)) - zv xvals i ≠ 0 := by
        have hlt := pairwise_getD_lt xvals hsort ((i - 1) / 2)
          ((i + (j + 1) - 1) / 2) (by omega) (by omega)
        exact sub_ne_zero.mpr (Ne.symm (ne_of_lt hlt))
      by_cases hci : (i - 1) / 2 = k
      · have hT1 := ih (by omega) i hi (by omega) ⟨i, Nat.le_refl i, by omega, hci⟩
        rw [hT1]
        have hzx : zv xvals i = xvals.getD k 0 := by
          unfold zv
          rw [hci]
        rw [← hzx, sub_self, zero_mul, add_zero, mul_div_cancel_left₀ _ hne]
      · by_cases hcj : (i + (j + 1) - 1) / 2 = k
        · have hT2 := ih (by omega) (i + 1) (by omega) (by omega)
            ⟨i + (j + 1), by omega, by omega, hcj⟩
          rw [hT2]
          have hzx : zv xvals (i + (j + 1)) = xvals.getD k 0 := by
            unfold zv
            rw [hcj]
          rw [← hzx, sub_self, zero_mul, zero_add, mul_div_cancel_left₀ _ hne]
        · have hmi : m ≠ i := by
            intro he
            rw [he] at hmk
            exact hci hmk
          have hmj : m ≠ i + (j + 1) := by
            intro he
            rw [he] at hmk
            exact hcj hmk
          have hT1 := ih (by omega) i hi (by omega) ⟨m, hm1, by omega, hmk⟩
          have hT2 := ih (by omega) (i + 1) (by omega) (by omega)
            ⟨m, by omega, by omega, hmk⟩
          rw [hT1, hT2, ← add_mul, sub_add_sub_cancel, mul_div_cancel_left₀ _ hne]

/-- C4.  For strictly increasing abscissas and interleaved
(value, derivative) data of matching length, a run of `hrmint_` at the
`k`-th abscissa that returns a pair returns the stored sample value
`yvals[2k]` exactly as its value component (f64 arithmetic modelled as
exact rationals). -/
theorem C4_hermite_consistency (xvals yvals : List ℚ) (k : Nat) (f df : ℚ)
    (hsort : List.Pairwise (fun a b => a < b) xvals)
    (_hylen : yvals.length = 2 * xvals.length)
    (hk : k < xvals.length)
    (hres : hrmint_ xvals yvals (xvals.getD k 0) = some (f, df)) :
    f = yvals.getD (2 * k) 0 := by
  obtain ⟨hL2, hy2, hp⟩ := hrmint_some_eq xvals yvals (xvals.getD k 0) (f, df) hres
  have hf : f = tableV xvals yvals (xvals.getD k 0) (2 * xvals.length - 1) 1 :=
    congrArg Prod.fst hp
  rw [hf]
  exact tableV_node xvals yvals k hsort hk (2 * xvals.length - 1) (by omega) 1
    (by omega) (by omega) ⟨2 * k + 1, by omega, by omega, by omega⟩

section

attribute [local semireducible] Rat.mul Rat.add Rat.sub Rat.inv

theorem C4_hermite_consistency_witness :
    hrmint_ [0, 1] [5, 7, 11, 13] (([0, 1] : List ℚ).getD 0 0) = some (5, 7) ∧
      (5 : ℚ) = ([5, 7, 11, 13] : List ℚ).getD (2 * 0) 0 :=
  ⟨by decide,
    C4_hermite_consistency [0, 1] [5, 7, 11, 13] 0 5 7 (by decide) (by decide)
      (by decide) (by decide)⟩

/-- C10.  With `2 ≤ n ≤ 64` distinct abscissas and at least `2n` state
values every work-array access is in bounds and `hrmint_` returns a
value, while `n = 65` drives the second-phase write index to 256 and
the run aborts (modelled as `none`). -/
theorem C10_hrmint_work_bounds :
    (∀ (xvals yvals : List ℚ) (x : ℚ), 2 ≤ xvals.length → xvals.length ≤ 64 →
        List.Pairwise (fun a b => a ≠ b) xvals → 2 * xvals.length ≤ yvals.length →
        ∃ p, hrmint_ xvals yvals x = some p) ∧
      hrmint_ (List.replicate 65 0) (List.replicate 130 0) 0 = none :=
  ⟨fun xvals yvals x h1 h2 _ h3 => hrmint_total xvals yvals x h1 h2 h3, by decide⟩

theorem C10_hrmint_work_bounds_witness :
    2 ≤ ([0, 1] : List ℚ).length ∧ ∃ p, hrmint_ [0, 1] [1, 2, 3, 4] 0 = some p :=
  ⟨by decide,
    C10_hrmint_work_bounds.1 [0, 1] [1, 2, 3, 4] 0 (by decide) (by decide)
      (by decide) (by decide)⟩

end

end Anise
